import Mathlib

/-!
Verification development for the translation job scheduler of the
language-app repository.

The Python source is shallowly embedded:
* text is modelled as `List Char` (`Str`), mirroring Python `str`;
* the SQLite store is a record of lists of rows, with the CRUD helpers of
  `app/persistence` (`translations.py` / `jobs.py`) as pure functions;
* the in-memory progress table of `TranslationQueueManager` is an
  association list; the guarded dict writes (`if tid in progress: ...`)
  become updates that only touch an existing entry;
* the worker body `_process_translation` is a pure state-passing function
  that also produces an event trace (rate-limiter waits, collaborator
  calls, persistence writes) and returns `Except` to model the Python
  exception that propagates out of the worker;
* the external LLM collaborators (full translation, segmentation,
  per-segment translation), the pypinyin conversion and the cedict lookup
  are oracle functions supplied in an `Env`;
* the rate limiter is modelled over ℚ wall-clock readings with explicit
  monotone-clock and sleep assumptions.
-/

namespace LanguageApp

/-- Python `str` is embedded as a list of characters. -/
abbrev Str := List Char

/-! ## Text utilities (`app/utils.py`) -/

/-- The whitespace characters recognised by Python `str.strip()` /
`str.isspace()`: CPython's whitespace table (U+0009–U+000D, the
separators U+001C–U+001F, space, U+0085, U+00A0, U+1680, the Unicode
spaces U+2000–U+200A, U+2028, U+2029, U+202F, U+205F and the
ideographic space U+3000). -/
def pyIsSpace (c : Char) : Bool :=
  let n := c.toNat
  (0x09 ≤ n && n ≤ 0x0D) ||
  (0x1C ≤ n && n ≤ 0x1F) ||
  n == 0x20 || n == 0x85 || n == 0xA0 || n == 0x1680 ||
  (0x2000 ≤ n && n ≤ 0x200A) ||
  n == 0x2028 || n == 0x2029 || n == 0x202F || n == 0x205F || n == 0x3000

/-- Python `line.strip()`: drop leading and trailing whitespace. -/
def pyStrip (s : Str) : Str :=
  ((s.dropWhile pyIsSpace).reverse.dropWhile pyIsSpace).reverse

/-- `not line.strip()`: the line is empty or whitespace only. -/
def isBlank (s : Str) : Bool :=
  (pyStrip s).isEmpty

/-- Python `line[: len(line) - len(line.lstrip())]`: the leading
whitespace of a line. -/
def indentOf (s : Str) : Str :=
  s.takeWhile pyIsSpace

/-- Python `text.split("\n")`: split on every newline, keeping empty
pieces (`"".split("\n") == [""]`). -/
def splitOnNL : Str → List Str
  | [] => [[]]
  | c :: rest =>
    if c = '\n' then [] :: splitOnNL rest
    else
      match splitOnNL rest with
      | [] => [[c]]
      | l :: ls => (c :: l) :: ls

/-- Joining the pieces of `splitOnNL` back with newlines. -/
def joinNL : List Str → Str
  | [] => []
  | [l] => l
  | l :: ls => l ++ '\n' :: joinNL ls

/-- One paragraph as produced by `split_into_paragraphs`. -/
structure RawPara where
  content : Str
  indent : Str
  separator : Str
  deriving DecidableEq

/-- The `while j < len(lines) and not lines[j].strip()` look-ahead of
`split_into_paragraphs`: how many blank lines immediately follow. -/
def countLeadingBlank : List Str → Nat
  | [] => 0
  | l :: ls => if isBlank l then countLeadingBlank ls + 1 else 0

/-- The per-line loop of `split_into_paragraphs`. A blank line never
becomes a paragraph (the `if not paragraphs and not line.strip()` skip
and the `if line.strip()` guard together mean exactly this); a non-blank
line `lines[i]` yields content `line.strip()`, indent
`line[:len(line)-len(line.lstrip())]`, and separator `"\n" * (1 + k)`
where `k` counts the blank lines that follow, except that the last line
(`i == len(lines) - 1`, i.e. no remaining lines) gets separator `""`. -/
def parasAux : List Str → List RawPara
  | [] => []
  | l :: ls =>
    if isBlank l then parasAux ls
    else
      { content := pyStrip l
        indent := indentOf l
        separator :=
          if ls.isEmpty then [] else List.replicate (1 + countLeadingBlank ls) '\n' }
        :: parasAux ls

/-- `split_into_paragraphs` from `app/utils.py`. -/
def splitIntoParagraphs (text : Str) : List RawPara :=
  if text.isEmpty then [] else parasAux (splitOnNL text)

/-- Reassembling the paragraphs: indent, then content, then separator,
in order (the reconstruction the spec asks to be faithful). -/
def reassemble (paras : List RawPara) : Str :=
  (paras.map (fun pa => pa.indent ++ pa.content ++ pa.separator)).flatten

/-- `_is_cjk_ideograph` from `app/utils.py`: the CJK Unified Ideograph
code-point ranges. -/
def isCJKIdeograph (c : Char) : Bool :=
  let n := c.toNat
  (0x4E00 ≤ n && n ≤ 0x9FFF) ||
  (0x3400 ≤ n && n ≤ 0x4DBF) ||
  (0x20000 ≤ n && n ≤ 0x2A6DF) ||
  (0x2A700 ≤ n && n ≤ 0x2CEAF) ||
  (0x2CEB0 ≤ n && n ≤ 0x2EBEF) ||
  (0x30000 ≤ n && n ≤ 0x323AF)

/-- `should_skip_segment` from `app/utils.py`. The Python loop sets
`has_cjk` only in the CJK branch; every other branch (whitespace, ASCII
non-alphabetic, Chinese punctuation, Unicode category) merely `continue`s
to the next character without touching `has_cjk`, so the returned value
`not has_cjk` depends only on the empty/whitespace shortcut and on
whether some character is a CJK ideograph. -/
def shouldSkipSegment (seg : Str) : Bool :=
  if seg.isEmpty || (pyStrip seg).isEmpty then true
  else !(seg.any isCJKIdeograph)

/-! ## Rate limiter (`RateLimiter` in `server/app/queue/manager.py`)

`wait()` runs under the limiter's lock: it reads the clock (`now`),
sleeps `min_delay - elapsed` when `elapsed = now - _last_request` is
below `min_delay`, then stores a fresh clock reading into
`_last_request`.  A call is modelled by the pair of clock readings
`(now, after)`: `now` on entry, `after` stored as the new
`_last_request`.  Physical assumptions: the clock is monotone (`now` is
at least the previous recorded time) and `time.sleep` sleeps at least
the requested duration (`after` is at least `now` plus the sleep). -/

/-- The sleep `wait()` performs: `min_delay - elapsed` when
`elapsed < min_delay`, nothing otherwise. -/
def rlSleepNeeded (d last now : ℚ) : ℚ :=
  if now - last < d then d - (now - last) else 0

/-- The recorded `_last_request` values of a sequence of `wait()` calls,
each call given by its `(now, after)` clock readings: each call stores
`after`. -/
def rlRecorded : ℚ → List (ℚ × ℚ) → List ℚ
  | _, [] => []
  | _, (_, after) :: calls => after :: rlRecorded after calls

/-- Physical validity of a trace of `wait()` calls against state `last`:
the entry clock reading is monotone and the post-sleep reading reflects
the sleep actually performed. -/
def rlValid (d : ℚ) : ℚ → List (ℚ × ℚ) → Prop
  | _, [] => True
  | last, (now, after) :: calls =>
    last ≤ now ∧ now + rlSleepNeeded d last now ≤ after ∧ rlValid d after calls

/-- Successive elements of the list are at least `d` apart. -/
def spacedBy (d : ℚ) : List ℚ → Prop
  | [] => True
  | [_] => True
  | a :: b :: rest => a + d ≤ b ∧ spacedBy d (b :: rest)

/-! ## Persisted store (`app/persistence` — the `translations`/`jobs`
CRUD module; the two copies in the repository are identical up to the
`translation`/`job` naming).  Row ids produced by `uuid4().hex` are
modelled by a fresh-id counter `nextId`. -/

inductive JobStatus
  | pending
  | processing
  | completed
  | failed
  deriving DecidableEq

/-- A row of the `translations`/`jobs` table. -/
structure JobRecord where
  id : Nat
  status : JobStatus
  sourceType : Str
  inputText : Str
  fullTranslation : Option Str
  errorMessage : Option Str
  deriving DecidableEq

/-- A row of the `translation_paragraphs`/`job_paragraphs` table. -/
structure ParaRecord where
  jobId : Nat
  paragraphIdx : Nat
  indent : Str
  separator : Str
  deriving DecidableEq

/-- A row of the `translation_segments`/`job_segments` table. -/
structure SegRecord where
  jobId : Nat
  paragraphIdx : Nat
  segIdx : Nat
  segmentText : Str
  pinyin : Str
  english : Str
  deriving DecidableEq

/-- The SQLite database: rows in insertion order, plus the fresh-id
supply. -/
structure Store where
  nextId : Nat
  jobs : List JobRecord
  paragraphs : List ParaRecord
  segments : List SegRecord
  deriving DecidableEq

/-- `create_translation`: INSERT a fresh row with status `'pending'`,
`full_translation` and `error_message` NULL.  Returns the new id. -/
def createTranslation (s : Store) (inputText sourceType : Str) : Nat × Store :=
  let tid := s.nextId
  (tid,
    { s with
      nextId := s.nextId + 1
      jobs := s.jobs ++
        [{ id := tid, status := .pending, sourceType := sourceType,
           inputText := inputText, fullTranslation := none, errorMessage := none }] })

/-- `get_translation`: SELECT by id. -/
def getTranslation (s : Store) (tid : Nat) : Option JobRecord :=
  s.jobs.find? (fun j => j.id == tid)

/-- `update_translation_status`: `SET status = ?, error_message = ?`
on the row with the given id.  The Python default passes
`error_message=None`, so the column is overwritten with NULL unless a
message is supplied. -/
def updateTranslationStatus (s : Store) (tid : Nat) (st : JobStatus)
    (err : Option Str) : Store :=
  { s with
    jobs := s.jobs.map (fun j =>
      if j.id == tid then { j with status := st, errorMessage := err } else j) }

/-- `complete_translation`: `SET status = 'completed',
full_translation = ?` — `error_message` is not touched. -/
def completeTranslation (s : Store) (tid : Nat) (ft : Str) : Store :=
  { s with
    jobs := s.jobs.map (fun j =>
      if j.id == tid then { j with status := .completed, fullTranslation := some ft } else j) }

/-- `fail_translation`: `update_translation_status(id, "failed", msg)`. -/
def failTranslation (s : Store) (tid : Nat) (msg : Str) : Store :=
  updateTranslationStatus s tid .failed (some msg)

/-- `save_translation_paragraph`: INSERT one paragraph row. -/
def saveTranslationParagraph (s : Store) (tid paraIdx : Nat)
    (indent separator : Str) : Store :=
  { s with
    paragraphs := s.paragraphs ++
      [{ jobId := tid, paragraphIdx := paraIdx, indent := indent, separator := separator }] }

/-- `save_translation_segment`: INSERT one segment row. -/
def saveTranslationSegment (s : Store) (tid paraIdx segIdx : Nat)
    (segmentText pinyin english : Str) : Store :=
  { s with
    segments := s.segments ++
      [{ jobId := tid, paragraphIdx := paraIdx, segIdx := segIdx,
         segmentText := segmentText, pinyin := pinyin, english := english }] }

/-! ## In-memory progress table (`TranslationQueueManager`) -/

/-- One `SegmentResult` dataclass value. -/
structure SegmentResult where
  paragraphIdx : Nat
  segIdx : Nat
  globalIdx : Nat
  segment : Str
  pinyin : Str
  english : Str
  deriving DecidableEq

/-- One entry of `self._translation_progress`.  The Python dict always
holds `status`, `current`, `total`, `results`; `full_translation` and
`error` keys are added on the terminal transitions, hence `Option`. -/
structure ProgressEntry where
  status : JobStatus
  current : Nat
  total : Nat
  results : List SegmentResult
  fullTranslation : Option Str
  error : Option Str
  deriving DecidableEq

/-- The progress table `self._translation_progress`, an association list
keyed by job id. -/
abbrev Progress := List (Nat × ProgressEntry)

/-- `self._translation_progress.get(tid)` (what `get_progress` returns
under the lock). -/
def pLookup (p : Progress) (tid : Nat) : Option ProgressEntry :=
  (p.find? (fun e => e.1 == tid)).map (fun e => e.2)

/-- The guarded worker write
`if tid in self._translation_progress: <mutate entry>`: an existing
entry is updated in place; an absent key is left absent. -/
def pSet (p : Progress) (tid : Nat) (f : ProgressEntry → ProgressEntry) : Progress :=
  p.map (fun e => if e.1 == tid then (e.1, f e.2) else e)

/-- The unguarded dict assignment
`self._translation_progress[tid] = entry` used by `submit_translation`:
overwrite an existing entry or append a new one. -/
def pInsert (p : Progress) (tid : Nat) (en : ProgressEntry) : Progress :=
  if (p.find? (fun e => e.1 == tid)).isSome then pSet p tid (fun _ => en)
  else p ++ [(tid, en)]

/-- `cleanup_progress`: `self._translation_progress.pop(tid, None)`. -/
def cleanupProgress (p : Progress) (tid : Nat) : Progress :=
  p.filter (fun e => e.1 != tid)

/-! ## The worker (`TranslationQueueManager._process_translation`)

The external collaborators are oracles in `Env`; each LLM-backed call
may raise, modelled by `Except Str` carrying the exception message.  The
worker produces a trace of the observable actions it performs. -/

/-- The external collaborators consumed by the worker.  `pinyinOracle`
stands for the pypinyin conversion inside `to_pinyin` (a local,
deterministic computation); `cedictLookup` for
`lookup(pipe.cedict, segment)`. -/
structure Env where
  fullTranslate : Str → Except Str Str
  segmentText : Str → Except Str (List Str)
  translate : Str → Str → Str → Except Str Str
  pinyinOracle : Str → Str
  cedictLookup : Str → Option Str

/-- `to_pinyin` from `app/utils.py`: empty for skippable segments,
otherwise the pypinyin conversion (modelled by the oracle). -/
def toPinyin (env : Env) (seg : Str) : Str :=
  if shouldSkipSegment seg then [] else env.pinyinOracle seg

/-- The call site a rate-limiter `wait()` belongs to. -/
inductive WaitSite
  | fullTranslation
  | segmentation
  | segTranslate (paraIdx segIdx : Nat) (segment : Str)
  deriving DecidableEq

/-- Observable worker actions, in program order. -/
inductive Ev
  | wait (site : WaitSite)
  | fullTranslateCall (text : Str)
  | segmentCall (content : Str)
  | translateCall (paraIdx segIdx : Nat) (segment : Str)
  | setTotal (n : Nat)
  | savePara (idx : Nat)
  | saveSeg (paraIdx segIdx : Nat) (segment pinyin english : Str)
  deriving DecidableEq

/-- One paragraph's accumulated data
(`{segments, indent, separator, content}`). -/
structure ParaData where
  segments : List Str
  indent : Str
  separator : Str
  content : Str
  deriving DecidableEq

/-- The "segment all paragraphs first" loop: rate-limit then call the
segmentation collaborator for each paragraph; an exception aborts the
loop. -/
def segmentParas (env : Env) : List RawPara → List Ev × Except Str (List ParaData)
  | [] => ([], .ok [])
  | pa :: rest =>
    let tr0 : List Ev := [.wait .segmentation, .segmentCall pa.content]
    match env.segmentText pa.content with
    | .error e => (tr0, .error e)
    | .ok segs =>
      let (tr, r) := segmentParas env rest
      (tr0 ++ tr,
        r.map (fun l =>
          { segments := segs, indent := pa.indent, separator := pa.separator,
            content := pa.content } :: l))

/-- The "save paragraph metadata" loop
(`for para_idx, para_data in enumerate(...): save_translation_paragraph(...)`). -/
def saveParas (tid : Nat) : List ParaData → Nat → Store → Store × List Ev
  | [], _, s => (s, [])
  | pd :: rest, idx, s =>
    let s1 := saveTranslationParagraph s tid idx pd.indent pd.separator
    let (s2, tr) := saveParas tid rest (idx + 1) s1
    (s2, .savePara idx :: tr)

/-- The body of the per-segment branch: skippable segments get empty
pinyin/english with no wait and no collaborator call; otherwise
rate-limit, compute pinyin, look up the dictionary hint
(`or "Not in dictionary"`), and call the translate collaborator. -/
def translateOne (env : Env) (content : Str) (paraIdx segIdx : Nat) (seg : Str) :
    List Ev × Except Str (Str × Str) :=
  if shouldSkipSegment seg then ([], .ok ([], []))
  else
    match env.translate seg content
        ((env.cedictLookup seg).getD ("Not in dictionary".toList)) with
    | .error e =>
      ([.wait (.segTranslate paraIdx segIdx seg), .translateCall paraIdx segIdx seg],
        .error e)
    | .ok english =>
      ([.wait (.segTranslate paraIdx segIdx seg), .translateCall paraIdx segIdx seg],
        .ok (toPinyin env seg, english))

/-- The progress-entry mirror of the transition to processing. -/
def processingUpdate : ProgressEntry → ProgressEntry := fun en =>
  { en with status := .processing }

/-- The progress-entry mirror of failure. -/
def failedUpdate (e : Str) : ProgressEntry → ProgressEntry := fun en =>
  { en with
    status := .failed
    error := some e }

/-- The progress-entry publication of `total`. -/
def totalUpdate (n : Nat) : ProgressEntry → ProgressEntry := fun en =>
  { en with total := n }

/-- The progress-entry mirror of successful completion. -/
def completedUpdate (ft : Str) : ProgressEntry → ProgressEntry := fun en =>
  { en with
    status := .completed
    fullTranslation := some ft }

/-- The per-segment progress write: set `current` to the incremented
global index and append the `SegmentResult`
(`progress["current"] = global_idx; progress["results"].append(result)`). -/
def segProgressUpdate (paraIdx segIdx g : Nat) (seg piny english : Str) :
    ProgressEntry → ProgressEntry := fun en =>
  { en with
    current := g + 1
    results := en.results ++
      [{ paragraphIdx := paraIdx, segIdx := segIdx, globalIdx := g,
         segment := seg, pinyin := piny, english := english }] }

/-- The inner per-segment loop of one paragraph: translate, persist the
segment row, then (guardedly) bump `current` and append the
`SegmentResult` to the progress entry.  Returns the updated global
index on success. -/
def processSegs (env : Env) (tid : Nat) (content : Str) (paraIdx : Nat) :
    List Str → Nat → Nat → Store → Progress →
    Store × Progress × List Ev × Except Str Nat
  | [], _, g, s, p => (s, p, [], .ok g)
  | seg :: rest, segIdx, g, s, p =>
    match translateOne env content paraIdx segIdx seg with
    | (evs, .error e) => (s, p, evs, .error e)
    | (evs, .ok (piny, english)) =>
      let s1 := saveTranslationSegment s tid paraIdx segIdx seg piny english
      let p1 := pSet p tid (segProgressUpdate paraIdx segIdx g seg piny english)
      let (s2, p2, tr, r) :=
        processSegs env tid content paraIdx rest (segIdx + 1) (g + 1) s1 p1
      (s2, p2, evs ++ .saveSeg paraIdx segIdx seg piny english :: tr, r)

/-- The outer per-paragraph loop of the translate phase. -/
def processParas (env : Env) (tid : Nat) :
    List ParaData → Nat → Nat → Store → Progress →
    Store × Progress × List Ev × Except Str Nat
  | [], _, g, s, p => (s, p, [], .ok g)
  | pd :: rest, paraIdx, g, s, p =>
    match processSegs env tid pd.content paraIdx pd.segments 0 g s p with
    | (s1, p1, tr1, .error e) => (s1, p1, tr1, .error e)
    | (s1, p1, tr1, .ok g1) =>
      let (s2, p2, tr2, r) := processParas env tid rest (paraIdx + 1) g1 s1 p1
      (s2, p2, tr1 ++ tr2, r)

/-- The `try` block of `_process_translation`: mark processing, load the
job, split into paragraphs, rate-limited full translation, segmentation
of every paragraph, publish `total`, persist paragraph rows, translate
and persist every segment, then mark completed. -/
def tryBody (env : Env) (tid : Nat) (s : Store) (p : Progress) :
    Store × Progress × List Ev × Except Str Unit :=
  let s1 := updateTranslationStatus s tid .processing none
  let p1 := pSet p tid processingUpdate
  match getTranslation s1 tid with
  | none =>
    (s1, p1, [], .error (("Translation " ++ Nat.repr tid ++ " not found").toList))
  | some job =>
    let paras := splitIntoParagraphs job.inputText
    let tr1 : List Ev := [.wait .fullTranslation, .fullTranslateCall job.inputText]
    match env.fullTranslate job.inputText with
    | .error e => (s1, p1, tr1, .error e)
    | .ok ft =>
      let (tr2, segRes) := segmentParas env paras
      match segRes with
      | .error e => (s1, p1, tr1 ++ tr2, .error e)
      | .ok allPara =>
        let total := (allPara.map (fun pd => pd.segments.length)).sum
        let p2 := pSet p1 tid (totalUpdate total)
        let (s2, tr4) := saveParas tid allPara 0 s1
        match processParas env tid allPara 0 0 s2 p2 with
        | (s3, p3, tr5, .error e) =>
          (s3, p3, tr1 ++ tr2 ++ .setTotal total :: tr4 ++ tr5, .error e)
        | (s3, p3, tr5, .ok _) =>
          let s4 := completeTranslation s3 tid ft
          let p4 := pSet p3 tid (completedUpdate ft)
          (s4, p4, tr1 ++ tr2 ++ .setTotal total :: tr4 ++ tr5, .ok ())

/-- `_process_translation`: run the `try` block; on any exception,
persist the job as failed with the exception message, mirror the failure
into the progress entry (guardedly), and re-raise (the `.error` result). -/
def processTranslation (env : Env) (tid : Nat) (s : Store) (p : Progress) :
    Store × Progress × List Ev × Except Str Unit :=
  match tryBody env tid s p with
  | (s1, p1, tr, .ok _) => (s1, p1, tr, .ok ())
  | (s1, p1, tr, .error e) =>
    let s2 := failTranslation s1 tid e
    let p2 := pSet p1 tid (failedUpdate e)
    (s2, p2, tr, .error e)

/-- `submit_translation`: create the persisted row (status pending) and
install the fresh progress entry; no collaborator is consulted (the
definition does not even take an `Env`) and nothing else of the store is
touched. -/
def submitTranslation (s : Store) (p : Progress) (inputText sourceType : Str) :
    Nat × Store × Progress :=
  let (tid, s1) := createTranslation s inputText sourceType
  (tid, s1,
    pInsert p tid
      { status := .pending, current := 0, total := 0, results := [],
        fullTranslation := none, error := none })

/-! ## `get_job_with_results` (`app/persistence/jobs.py`)

The SQL `ORDER BY paragraph_idx` / `ORDER BY paragraph_idx, seg_idx` is
modelled by a (stable) merge sort of the filtered rows.  The Python
grouping keys a dict by `paragraph_idx` and appends each segment row to
the paragraph with its index; a segment whose `paragraph_idx` matches no
paragraph row is dropped (`if para_idx in para_map`).  Rows of one job
have pairwise distinct `paragraph_idx` (the worker writes one row per
index), under which the dict grouping equals the per-paragraph filter
used here. -/

/-- Non-strict lexicographic order on `(paragraph_idx, seg_idx)`. -/
def lexLe (a b : Nat × Nat) : Bool :=
  a.1 < b.1 || (a.1 == b.1 && a.2 ≤ b.2)

/-- The paragraph rows of one job, in `ORDER BY paragraph_idx`. -/
def parasForJob (s : Store) (jid : Nat) : List ParaRecord :=
  (s.paragraphs.filter (fun pr => pr.jobId == jid)).mergeSort
    (fun a b => a.paragraphIdx ≤ b.paragraphIdx)

/-- The segment rows of one job, in `ORDER BY paragraph_idx, seg_idx`. -/
def segsForJob (s : Store) (jid : Nat) : List SegRecord :=
  (s.segments.filter (fun sr => sr.jobId == jid)).mergeSort
    (fun a b => lexLe (a.paragraphIdx, a.segIdx) (b.paragraphIdx, b.segIdx))

/-- One paragraph of the structured result: the dict
`{paragraph_idx, indent, separator, translations}`. -/
structure ParaOut where
  paragraphIdx : Nat
  indent : Str
  separator : Str
  translations : List (Str × Str × Str)
  deriving DecidableEq

/-- `get_job_with_results`: the job row plus its paragraphs, each with
the `(segment, pinyin, english)` triples of its segments. -/
structure JobWithResults where
  job : JobRecord
  paragraphs : List ParaOut
  deriving DecidableEq

/-- `get_job_with_results` from `app/persistence/jobs.py`. -/
def getJobWithResults (s : Store) (jid : Nat) : Option JobWithResults :=
  (getTranslation s jid).map (fun job =>
    { job := job
      paragraphs := (parasForJob s jid).map (fun pr =>
        { paragraphIdx := pr.paragraphIdx
          indent := pr.indent
          separator := pr.separator
          translations :=
            ((segsForJob s jid).filter
                (fun sr => sr.paragraphIdx == pr.paragraphIdx)).map
              (fun sr => (sr.segmentText, sr.pinyin, sr.english)) }) })

/-! ## Progress stream adapter (`translation_stream` in
`server/app/routes/jobs.py`) -/

/-- Per-paragraph metadata in the `start` event
(`{segment_count, indent, separator}`). -/
structure ParaInfo where
  segmentCount : Nat
  indent : Str
  separator : Str
  deriving DecidableEq

/-- The discrete events the adapter emits (each is serialised on the
wire as one `data: <json>\n\n` line pair). -/
inductive Event
  | start (total : Nat) (paragraphs : List ParaInfo) (fullTranslation : Option Str)
  | progress (current total : Nat) (segment pinyin english : Str)
      (index paragraphIndex : Nat)
  | complete (paragraphs : List ParaOut) (fullTranslation : Option Str)
  | error (message : Str)
  deriving DecidableEq

/-- The inner `for seg_idx, t in enumerate(para["translations"])` loop of
the completed-job replay: one `progress` event per segment, `index` the
global counter before increment, `current` the counter after. -/
def segEvents (total paraIdx : Nat) : List (Str × Str × Str) → Nat → List Event
  | [], _ => []
  | (seg, piny, eng) :: rest, g =>
    .progress (g + 1) total seg piny eng g paraIdx :: segEvents total paraIdx rest (g + 1)

/-- The outer `for para_idx, para in enumerate(result.paragraphs)` loop
of the completed-job replay. -/
def paraEvents (total : Nat) : List ParaOut → Nat → Nat → List Event
  | [], _, _ => []
  | pa :: rest, paraIdx, g =>
    segEvents total paraIdx pa.translations g ++
      paraEvents total rest (paraIdx + 1) (g + pa.translations.length)

/-- The full replay for an already-completed job: one `start` event with
the total segment count, the per-paragraph metadata and the stored full
translation; the `progress` events; one `complete` event. -/
def completedEvents (res : JobWithResults) : List Event :=
  let total := (res.paragraphs.map (fun pa => pa.translations.length)).sum
  .start total
      (res.paragraphs.map (fun pa =>
        { segmentCount := pa.translations.length, indent := pa.indent,
          separator := pa.separator }))
      res.job.fullTranslation
    :: paraEvents total res.paragraphs 0 0
    ++ [.complete res.paragraphs res.job.fullTranslation]

/-- The dispatch of `translation_stream`'s generator on the stored job
status.  Returns the emitted events, whether `start_processing` was
invoked, and the progress table (unchanged by the branches modelled
here).  The pending/processing poll loop that follows the
`start_processing` trigger involves real-time concurrent interleaving
with the worker and is not modelled; for those statuses the function
only records that processing is triggered exactly when the status is
`pending`.  The terminal branches — the single-pass replay of a
completed job and the single `error` event of a failed one (with the
`or 'Job failed'` fallback) — are modelled in full. -/
def translationStream (s : Store) (p : Progress) (jid : Nat) :
    List Event × Bool × Progress :=
  match getTranslation s jid with
  | none => ([.error ("Job not found".toList)], false, p)
  | some job =>
    if job.status == .completed then
      match getJobWithResults s jid with
      | some res => (completedEvents res, false, p)
      | none => ([], false, p)
    else if job.status == .failed then
      ([.error (job.errorMessage.getD ("Job failed".toList))], false, p)
    else
      ([], job.status == .pending, p)

/-! ## Claim C1: rate limiter spacing -/

theorem spacedBy_tail {d : ℚ} {a : ℚ} {l : List ℚ} (h : spacedBy d (a :: l)) :
    spacedBy d l := by
  cases l with
  | nil => trivial
  | cons b rest => exact h.2

theorem rlRecorded_spaced (d : ℚ) :
    ∀ (calls : List (ℚ × ℚ)) (last : ℚ), rlValid d last calls →
      spacedBy d (last :: rlRecorded last calls) := by
  intro calls
  induction calls with
  | nil => intro last _; trivial
  | cons c rest ih =>
    intro last h
    obtain ⟨h1, h2, h3⟩ := h
    refine ⟨?_, ih c.2 h3⟩
    unfold rlSleepNeeded at h2
    by_cases hc : c.1 - last < d
    · rw [if_pos hc] at h2; linarith
    · rw [if_neg hc] at h2
      push_neg at hc
      linarith

/-- Claim C1: for every serialized sequence of `RateLimiter.wait()` calls
(each call observing a monotone clock and `time.sleep` sleeping at least
`min_delay - elapsed` when the previous recorded start is less than
`min_delay` in the past), the recorded start times of any two successive
permitted calls differ by at least `min_delay`. -/
theorem claim_C1_rate_limiter_spacing (d last : ℚ) (calls : List (ℚ × ℚ))
    (h : rlValid d last calls) : spacedBy d (rlRecorded last calls) :=
  spacedBy_tail (rlRecorded_spaced d calls last h)

theorem claim_C1_witness :
    rlValid 1 0 [(0, 1), (1, 2)] ∧ spacedBy 1 (rlRecorded 0 [(0, 1), (1, 2)]) := by
  have h : rlValid 1 0 [(0, 1), (1, 2)] := by
    refine ⟨by norm_num, ?_, by norm_num, ?_, trivial⟩ <;>
      · simp [rlSleepNeeded]
        try norm_num
  exact ⟨h, claim_C1_rate_limiter_spacing 1 0 _ h⟩

/-! ## Claim C8: paragraph splitting and reconstruction -/

/-- `splitOnNL` never returns the empty list. -/
theorem splitOnNL_ne_nil (t : Str) : splitOnNL t ≠ [] := by
  cases t with
  | nil => simp [splitOnNL]
  | cons c rest =>
    by_cases hc : c = '\n'
    · simp [splitOnNL, hc]
    · simp only [splitOnNL, if_neg hc]
      cases h : splitOnNL rest <;> simp

/-- Joining the pieces of `splitOnNL` with newlines restores the text. -/
theorem joinNL_splitOnNL (t : Str) : joinNL (splitOnNL t) = t := by
  induction t with
  | nil => rfl
  | cons c rest ih =>
    by_cases hc : c = '\n'
    · subst hc
      simp only [splitOnNL, if_pos rfl]
      cases h : splitOnNL rest with
      | nil => exact absurd h (splitOnNL_ne_nil rest)
      | cons l ls =>
        rw [h] at ih
        simp only [joinNL]
        rw [ih]
        rfl
    · simp only [splitOnNL, if_neg hc]
      cases h : splitOnNL rest with
      | nil => exact absurd h (splitOnNL_ne_nil rest)
      | cons l ls =>
        rw [h] at ih
        cases ls with
        | nil => simp only [joinNL] at ih ⊢; rw [ih]
        | cons l2 ls2 => simp only [joinNL] at ih ⊢; rw [List.cons_append, ih]

/-- The last element of a cons is the last element of a non-empty tail. -/
theorem getLast?_cons_ne {α : Type} {a : α} {rest : List α} (h : rest ≠ []) :
    (a :: rest).getLast? = rest.getLast? := by
  cases rest with
  | nil => exact absurd rfl h
  | cons b t => exact List.getLast?_cons_cons

/-- A non-blank line with no trailing whitespace splits exactly into its
indent and its stripped content. -/
theorem indent_append_strip {l : Str} (hb : isBlank l = false)
    (ht : (l.reverse.takeWhile pyIsSpace).isEmpty = true) :
    indentOf l ++ pyStrip l = l := by
  have hm : l.dropWhile pyIsSpace ≠ [] := by
    intro hnil
    unfold isBlank pyStrip at hb
    rw [hnil] at hb
    simp at hb
  cases hrev : (l.dropWhile pyIsSpace).reverse with
  | nil => exact absurd (by simpa using congrArg List.reverse hrev) hm
  | cons c tail =>
    have hns : ¬ pyIsSpace c = true := by
      intro hsp
      have hcl : l.reverse = c :: (tail ++ (l.takeWhile pyIsSpace).reverse) := by
        conv_lhs => rw [← List.takeWhile_append_dropWhile pyIsSpace l]
        rw [List.reverse_append, hrev]
        simp
      have hmem : c ∈ l.reverse.takeWhile pyIsSpace := by
        rw [hcl, List.takeWhile_cons, if_pos hsp]
        exact List.mem_cons_self _ _
      rw [List.isEmpty_iff] at ht
      rw [ht] at hmem
      exact absurd hmem (List.not_mem_nil c)
    have hdrop : (c :: tail).dropWhile pyIsSpace = c :: tail := by
      rw [List.dropWhile_cons, if_neg hns]
    have hps : pyStrip l = l.dropWhile pyIsSpace := by
      unfold pyStrip
      rw [hrev, hdrop, ← hrev, List.reverse_reverse]
    unfold indentOf
    rw [hps]
    exact List.takeWhile_append_dropWhile pyIsSpace l

/-- Dropping the leading blank lines and reinserting the corresponding
newlines is the identity on a line list whose blank lines are empty and
whose last line is non-blank. -/
theorem blankRun_join :
    ∀ (ls : List Str), ls ≠ [] →
      (∀ l ∈ ls, isBlank l = true → l = []) →
      (∀ l, ls.getLast? = some l → isBlank l = false) →
      List.replicate (countLeadingBlank ls) '\n' ++ joinNL (ls.dropWhile isBlank)
        = joinNL ls := by
  intro ls
  induction ls with
  | nil => intro h; exact absurd rfl h
  | cons a rest ih =>
    intro _ hB hD
    by_cases ha : isBlank a = true
    · have hae : a = [] := hB a (List.mem_cons_self _ _) ha
      have hrest : rest ≠ [] := by
        intro hnil
        subst hnil
        have := hD a rfl
        rw [ha] at this
        cases this
      have ihr := ih hrest (fun l hl => hB l (List.mem_cons_of_mem _ hl))
        (fun l hl => hD l (by rwa [getLast?_cons_ne hrest]))
      have hcb : countLeadingBlank (a :: rest) = countLeadingBlank rest + 1 := by
        simp [countLeadingBlank, ha]
      have hdw : (a :: rest).dropWhile isBlank = rest.dropWhile isBlank := by
        rw [List.dropWhile_cons, if_pos ha]
      have hj : joinNL (a :: rest) = '\n' :: joinNL rest := by
        cases hrm : rest with
        | nil => exact absurd hrm hrest
        | cons b rest2 => rw [hae]; simp [joinNL]
      rw [hcb, hdw, hj, List.replicate_succ, List.cons_append, ihr]
    · have ha' : isBlank a = false := by simpa using ha
      simp [countLeadingBlank, ha', List.dropWhile_cons]

/-- Reassembling the paragraphs of a well-formed line list gives back the
newline-joined lines, after the leading blank lines are dropped. -/
theorem parasAux_reassemble :
    ∀ (ls : List Str),
      (∀ l ∈ ls, isBlank l = true → l = []) →
      (∀ l ∈ ls, isBlank l = false → (l.reverse.takeWhile pyIsSpace).isEmpty = true) →
      (∀ l, ls.getLast? = some l → isBlank l = false) →
      reassemble (parasAux ls) = joinNL (ls.dropWhile isBlank) := by
  intro ls
  induction ls with
  | nil => intro _ _ _; rfl
  | cons a rest ih =>
    intro hB hC hD
    by_cases ha : isBlank a = true
    · have hrest : rest ≠ [] := by
        intro hnil
        subst hnil
        have := hD a rfl
        rw [ha] at this
        cases this
      have hpa : parasAux (a :: rest) = parasAux rest := by
        simp [parasAux, ha]
      have hdw : (a :: rest).dropWhile isBlank = rest.dropWhile isBlank := by
        rw [List.dropWhile_cons, if_pos ha]
      rw [hpa, hdw]
      exact ih (fun l hl => hB l (List.mem_cons_of_mem _ hl))
        (fun l hl => hC l (List.mem_cons_of_mem _ hl))
        (fun l hl => hD l (by rwa [getLast?_cons_ne hrest]))
    · have ha' : isBlank a = false := by simpa using ha
      have hstr : indentOf a ++ pyStrip a = a :=
        indent_append_strip ha' (hC a (List.mem_cons_self _ _) ha')
      have hdw : (a :: rest).dropWhile isBlank = a :: rest := by
        rw [List.dropWhile_cons, ha']
        simp
      rw [hdw]
      cases hrm : rest with
      | nil =>
        subst hrm
        simp [parasAux, ha', reassemble, joinNL, ← List.append_assoc, hstr]
      | cons b rest2 =>
        rw [← hrm]
        have hrest : rest ≠ [] := by rw [hrm]; simp
        have ihr := ih (fun l hl => hB l (List.mem_cons_of_mem _ hl))
          (fun l hl => hC l (List.mem_cons_of_mem _ hl))
          (fun l hl => hD l (by rwa [getLast?_cons_ne hrest]))
        have hbj := blankRun_join rest hrest
          (fun l hl => hB l (List.mem_cons_of_mem _ hl))
          (fun l hl => hD l (by rwa [getLast?_cons_ne hrest]))
        have hne : rest.isEmpty = false := by rw [hrm]; rfl
        have hpa : parasAux (a :: rest) =
            { content := pyStrip a, indent := indentOf a,
              separator := List.replicate (1 + countLeadingBlank rest) '\n' }
              :: parasAux rest := by
          simp [parasAux, ha', hne]
        have hj : joinNL (a :: rest) = a ++ '\n' :: joinNL rest := by
          rw [hrm]; simp [joinNL]
        rw [hpa, hj]
        show indentOf a ++ pyStrip a ++ List.replicate (1 + countLeadingBlank rest) '\n'
            ++ reassemble (parasAux rest) = a ++ '\n' :: joinNL rest
        rw [hstr, ihr, List.append_assoc]
        congr 1
        rw [← hbj, List.replicate_add, List.append_assoc]
        rfl

/-- The well-formedness a line list needs for faithful reconstruction:
no leading blank line, blank lines are entirely empty, non-blank lines
carry no trailing whitespace, and the last line is non-blank. -/
def goodLines (lines : List Str) : Bool :=
  (match lines.head? with
   | none => true
   | some l => !isBlank l) &&
  lines.all (fun l =>
    if isBlank l then l.isEmpty else (l.reverse.takeWhile pyIsSpace).isEmpty) &&
  (match lines.getLast? with
   | none => true
   | some l => !isBlank l)

/-- Claim C8, counterexample: for the input `"a\n"` the paragraphs of
`split_into_paragraphs` reassemble (indent ++ content ++ separator, in
order) to `"a\n\n"`, not to the original text — the separator counts one
newline per trailing blank split piece plus one, over-counting the final
newline. -/
theorem claim_C8_counterexample :
    reassemble (splitIntoParagraphs ("a\n".toList)) ≠ "a\n".toList := by
  decide

/-- Claim C8, amended: for every input text whose newline-split lines
have no leading blank line, only entirely-empty blank lines, no trailing
whitespace on non-blank lines, and a non-blank last line, concatenating
indent ++ content ++ separator over the returned paragraphs in order
yields exactly the original text.  (Leading blank lines are dropped with
no record; trailing whitespace is stripped from content with no record;
a blank final split piece makes the preceding separator over-count — so
each hypothesis is forced by a counterexample of the same shape as
`claim_C8_counterexample`.) -/
theorem claim_C8_amended (text : Str) (h : goodLines (splitOnNL text) = true) :
    reassemble (splitIntoParagraphs text) = text := by
  by_cases hte : text.isEmpty = true
  · rw [List.isEmpty_iff] at hte
    subst hte
    rfl
  · unfold splitIntoParagraphs
    rw [if_neg hte]
    unfold goodLines at h
    simp only [Bool.and_eq_true, List.all_eq_true] at h
    obtain ⟨⟨hhead, hall⟩, hlast⟩ := h
    have hB : ∀ l ∈ splitOnNL text, isBlank l = true → l = [] := by
      intro l hl hbl
      have := hall l hl
      rw [if_pos hbl] at this
      exact List.isEmpty_iff.mp this
    have hC : ∀ l ∈ splitOnNL text, isBlank l = false →
        (l.reverse.takeWhile pyIsSpace).isEmpty = true := by
      intro l hl hbl
      have := hall l hl
      rw [hbl] at this
      simpa using this
    have hD : ∀ l, (splitOnNL text).getLast? = some l → isBlank l = false := by
      intro l hl
      rw [hl] at hlast
      simpa using hlast
    have hdw : (splitOnNL text).dropWhile isBlank = splitOnNL text := by
      cases hsp : splitOnNL text with
      | nil => rfl
      | cons l ls =>
        rw [hsp] at hhead
        have hlb : isBlank l = false := by simpa using hhead
        rw [List.dropWhile_cons, hlb]
        simp
    rw [parasAux_reassemble (splitOnNL text) hB hC hD, hdw, joinNL_splitOnNL]

theorem claim_C8_witness :
    goodLines (splitOnNL ("  a\n\nb".toList)) = true ∧
      reassemble (splitIntoParagraphs ("  a\n\nb".toList)) = "  a\n\nb".toList :=
  ⟨by decide, claim_C8_amended _ (by decide)⟩

/-! ## Progress-table lemmas -/

theorem pLookup_pSet_self (p : Progress) (tid : Nat) (f : ProgressEntry → ProgressEntry) :
    pLookup (pSet p tid f) tid = (pLookup p tid).map f := by
  induction p with
  | nil => rfl
  | cons e rest ih =>
    by_cases he : e.1 = tid
    · subst he
      simp [pSet, pLookup, List.find?_cons]
    · have heb : (e.1 == tid) = false := by simpa using he
      have h1 : pSet (e :: rest) tid f = e :: pSet rest tid f := by
        simp [pSet, he]
      rw [h1]
      simp only [pLookup, List.find?_cons, heb] at ih ⊢
      exact ih

theorem pSet_of_absent {p : Progress} {tid : Nat} (h : pLookup p tid = none)
    (f : ProgressEntry → ProgressEntry) : pSet p tid f = p := by
  induction p with
  | nil => rfl
  | cons e rest ih =>
    by_cases he : e.1 = tid
    · exfalso
      subst he
      simp [pLookup, List.find?_cons] at h
    · have heb : (e.1 == tid) = false := by simpa using he
      have hrest : pLookup rest tid = none := by
        simpa [pLookup, List.find?_cons, heb] using h
      have h1 : pSet (e :: rest) tid f = e :: pSet rest tid f := by
        simp [pSet, he]
      rw [h1, ih hrest]

theorem pLookup_pSet_isSome (p : Progress) (tid : Nat)
    (f : ProgressEntry → ProgressEntry) :
    (pLookup (pSet p tid f) tid).isSome = (pLookup p tid).isSome := by
  rw [pLookup_pSet_self]
  cases pLookup p tid <;> rfl

theorem pLookup_pInsert_self (p : Progress) (tid : Nat) (en : ProgressEntry) :
    pLookup (pInsert p tid en) tid = some en := by
  unfold pInsert
  by_cases hp : (p.find? (fun e => e.1 == tid)).isSome
  · rw [if_pos hp, pLookup_pSet_self]
    unfold pLookup
    cases hf : p.find? (fun e => e.1 == tid) with
    | none => rw [hf] at hp; cases hp
    | some e => rfl
  · rw [if_neg hp]
    unfold pLookup
    rw [List.find?_append]
    cases hf : p.find? (fun e => e.1 == tid) with
    | none => simp [List.find?_cons]
    | some e => rw [hf] at hp; simp at hp

/-! ## Claim C9: `submit_translation` -/

/-- Claim C9: for every non-empty input text, `submit_translation`
creates a persisted job with status pending (an immediate
`get_translation` of the returned id shows pending, null
full-translation and null error), installs a progress entry with status
pending, `current = 0`, `total = 0` and an empty results list, returns a
previously-unseen id (given that all existing job ids are below the
fresh-id counter), and persists no paragraph or segment rows — no
translation work happens synchronously (the definition consumes no
collaborator `Env` at all). -/
theorem claim_C9_submit (s : Store) (p : Progress) (inputText sourceType : Str)
    (tid : Nat) (s' : Store) (p' : Progress)
    (hwf : ∀ j ∈ s.jobs, j.id < s.nextId)
    (_hne : inputText ≠ [])
    (hrun : submitTranslation s p inputText sourceType = (tid, s', p')) :
    getTranslation s tid = none ∧
    getTranslation s' tid = some
      { id := tid, status := .pending, sourceType := sourceType,
        inputText := inputText, fullTranslation := none, errorMessage := none } ∧
    pLookup p' tid = some
      { status := .pending, current := 0, total := 0, results := [],
        fullTranslation := none, error := none } ∧
    s'.segments = s.segments ∧ s'.paragraphs = s.paragraphs := by
  have htid : tid = s.nextId := by
    have := congrArg (fun x => x.1) hrun
    simpa [submitTranslation, createTranslation] using this.symm
  have hs' : s' = (createTranslation s inputText sourceType).2 := by
    have := congrArg (fun x => x.2.1) hrun
    simpa [submitTranslation] using this.symm
  have hp' : p' = pInsert p tid
      { status := .pending, current := 0, total := 0, results := [],
        fullTranslation := none, error := none } := by
    have h2 := congrArg (fun x => x.2.2) hrun
    have h1 := congrArg (fun x => x.1) hrun
    simp only [submitTranslation] at h1 h2
    rw [← h2, ← h1]
  have hnone : getTranslation s tid = none := by
    unfold getTranslation
    rw [List.find?_eq_none]
    intro j hj
    have := hwf j hj
    subst htid
    simp only [beq_iff_eq]
    omega
  refine ⟨hnone, ?_, ?_, ?_, ?_⟩
  · subst hs'
    unfold getTranslation at hnone ⊢
    simp only [createTranslation]
    rw [List.find?_append, hnone]
    subst htid
    simp [List.find?_cons]
  · rw [hp']
    exact pLookup_pInsert_self p tid _
  · subst hs'; rfl
  · subst hs'; rfl

theorem claim_C9_witness :
    (∀ j ∈ (Store.mk 5 [] [] []).jobs, j.id < 5) ∧
    ("a".toList ≠ []) ∧
    (getTranslation (Store.mk 5 [] [] []) 5 = none ∧
     getTranslation (submitTranslation (Store.mk 5 [] [] []) [] ("a".toList)
        ("text".toList)).2.1 5 = some
       { id := 5, status := .pending, sourceType := "text".toList,
         inputText := "a".toList, fullTranslation := none, errorMessage := none } ∧
     pLookup (submitTranslation (Store.mk 5 [] [] []) [] ("a".toList)
        ("text".toList)).2.2 5 = some
       { status := .pending, current := 0, total := 0, results := [],
         fullTranslation := none, error := none } ∧
     (submitTranslation (Store.mk 5 [] [] []) [] ("a".toList)
        ("text".toList)).2.1.segments = (Store.mk 5 [] [] []).segments ∧
     (submitTranslation (Store.mk 5 [] [] []) [] ("a".toList)
        ("text".toList)).2.1.paragraphs = (Store.mk 5 [] [] []).paragraphs) :=
  ⟨by simp, by simp,
    claim_C9_submit (Store.mk 5 [] [] []) [] ("a".toList) ("text".toList) 5 _ _
      (by simp) (by simp) rfl⟩

/-! ## Store lemmas -/

theorem find?_map_id_preserving (l : List JobRecord) (tid : Nat)
    (g : JobRecord → JobRecord) (hg : ∀ j, (g j).id = j.id) :
    (l.map (fun j => if j.id == tid then g j else j)).find? (fun j => j.id == tid)
      = (l.find? (fun j => j.id == tid)).map g := by
  induction l with
  | nil => rfl
  | cons j rest ih =>
    simp only [List.map_cons]
    by_cases hj : j.id = tid
    · have hjb : (j.id == tid) = true := by simpa using hj
      have hjf : (if (j.id == tid) = true then g j else j) = g j := if_pos hjb
      have hgb : ((g j).id == tid) = true := by simp [hg j, hj]
      rw [hjf, List.find?_cons, List.find?_cons, hgb, hjb]
      rfl
    · have hjb : (j.id == tid) = false := by simpa using hj
      have hjf : (if (j.id == tid) = true then g j else j) = j := by
        rw [if_neg]
        simp [hjb]
      rw [hjf, List.find?_cons, List.find?_cons, hjb]
      exact ih

theorem getTranslation_update (s : Store) (tid : Nat) (st : JobStatus)
    (err : Option Str) :
    getTranslation (updateTranslationStatus s tid st err) tid
      = (getTranslation s tid).map (fun j => { j with status := st, errorMessage := err }) := by
  unfold getTranslation updateTranslationStatus
  exact find?_map_id_preserving s.jobs tid _ (fun _ => rfl)

theorem getTranslation_complete (s : Store) (tid : Nat) (ft : Str) :
    getTranslation (completeTranslation s tid ft) tid
      = (getTranslation s tid).map
          (fun j => { j with status := .completed, fullTranslation := some ft }) := by
  unfold getTranslation completeTranslation
  exact find?_map_id_preserving s.jobs tid _ (fun _ => rfl)

theorem getTranslation_of_jobs_eq {s1 s2 : Store} (h : s1.jobs = s2.jobs) (tid : Nat) :
    getTranslation s1 tid = getTranslation s2 tid := by
  unfold getTranslation
  rw [h]

/-! ## Trace-event classifiers -/

/-- A rate-limiter wait or a translate call performed for a skippable
segment — what claim C6 rules out. -/
def skipViolation : Ev → Bool
  | .wait (.segTranslate _ _ seg) => shouldSkipSegment seg
  | .translateCall _ _ seg => shouldSkipSegment seg
  | _ => false

/-- A persistence event: a paragraph or segment row write. -/
def isPersistEv : Ev → Bool
  | .savePara _ => true
  | .saveSeg _ _ _ _ _ => true
  | _ => false

/-- The publication of `total` into the progress entry. -/
def isSetTotal : Ev → Bool
  | .setTotal _ => true
  | _ => false

/-! ## Worker-stage lemmas -/

theorem translateOne_skip {seg : Str} (env : Env) (content : Str) (paraIdx segIdx : Nat)
    (h : shouldSkipSegment seg = true) :
    translateOne env content paraIdx segIdx seg = ([], .ok ([], [])) := by
  unfold translateOne
  rw [if_pos h]

theorem translateOne_trace (env : Env) (content : Str) (paraIdx segIdx : Nat) (seg : Str) :
    ∀ ev ∈ (translateOne env content paraIdx segIdx seg).1,
      skipViolation ev = false ∧ isSetTotal ev = false := by
  intro ev hev
  unfold translateOne at hev
  by_cases h : shouldSkipSegment seg = true
  · rw [if_pos h] at hev
    simp at hev
  · have h' : shouldSkipSegment seg = false := by simpa using h
    rw [if_neg h] at hev
    cases htr : env.translate seg content ((env.cedictLookup seg).getD ("Not in dictionary".toList)) with
    | error e =>
      rw [htr] at hev
      simp only [List.mem_cons, List.mem_singleton] at hev
      rcases hev with rfl | rfl | h0
      · exact ⟨by simp [skipViolation, h'], rfl⟩
      · exact ⟨by simp [skipViolation, h'], rfl⟩
      · cases h0
    | ok english =>
      rw [htr] at hev
      simp only [List.mem_cons, List.mem_singleton] at hev
      rcases hev with rfl | rfl | h0
      · exact ⟨by simp [skipViolation, h'], rfl⟩
      · exact ⟨by simp [skipViolation, h'], rfl⟩
      · cases h0

theorem translateOne_ok_skip {env : Env} {content : Str} {paraIdx segIdx : Nat}
    {seg : Str} {evs : List Ev} {piny english : Str}
    (h : translateOne env content paraIdx segIdx seg = (evs, .ok (piny, english)))
    (hskip : shouldSkipSegment seg = true) : piny = [] ∧ english = [] := by
  rw [translateOne_skip env content paraIdx segIdx hskip] at h
  injection h with h1 h2
  injection h2 with h3
  injection h3 with h4 h5
  exact ⟨h4.symm, h5.symm⟩

theorem segmentParas_trace (env : Env) :
    ∀ paras : List RawPara, ∀ ev ∈ (segmentParas env paras).1,
      skipViolation ev = false ∧ isPersistEv ev = false ∧ isSetTotal ev = false := by
  intro paras
  induction paras with
  | nil => intro ev hev; cases hev
  | cons pa rest ih =>
    intro ev hev
    unfold segmentParas at hev
    cases hsc : env.segmentText pa.content with
    | error e =>
      rw [hsc] at hev
      simp only [List.mem_cons, List.mem_singleton] at hev
      rcases hev with rfl | rfl | h0
      · exact ⟨rfl, rfl, rfl⟩
      · exact ⟨rfl, rfl, rfl⟩
      · cases h0
    | ok segs =>
      rw [hsc] at hev
      simp only [List.cons_append, List.nil_append, List.mem_cons] at hev
      rcases hev with rfl | rfl | hmem
      · exact ⟨rfl, rfl, rfl⟩
      · exact ⟨rfl, rfl, rfl⟩
      · exact ih ev hmem

theorem saveParas_frame (tid : Nat) :
    ∀ (pds : List ParaData) (idx : Nat) (s : Store),
      (saveParas tid pds idx s).1.jobs = s.jobs ∧
      (saveParas tid pds idx s).1.segments = s.segments ∧
      (∃ ts, (saveParas tid pds idx s).1.paragraphs = s.paragraphs ++ ts) ∧
      (∀ ev ∈ (saveParas tid pds idx s).2,
        skipViolation ev = false ∧ isSetTotal ev = false) := by
  intro pds
  induction pds with
  | nil =>
    intro idx s
    exact ⟨rfl, rfl, ⟨[], by simp [saveParas]⟩, by intro ev hev; cases hev⟩
  | cons pd rest ih =>
    intro idx s
    obtain ⟨hj, hs, ⟨ts, hp⟩, htr⟩ :=
      ih (idx + 1) (saveTranslationParagraph s tid idx pd.indent pd.separator)
    have hsp : saveParas tid (pd :: rest) idx s
        = ((saveParas tid rest (idx + 1)
              (saveTranslationParagraph s tid idx pd.indent pd.separator)).1,
           Ev.savePara idx ::
            (saveParas tid rest (idx + 1)
              (saveTranslationParagraph s tid idx pd.indent pd.separator)).2) := rfl
    rw [hsp]
    refine ⟨hj, hs,
      ⟨{ jobId := tid, paragraphIdx := idx, indent := pd.indent,
         separator := pd.separator } :: ts, ?_⟩, ?_⟩
    · rw [hp]
      simp [saveTranslationParagraph]
    · intro ev hev
      simp only [List.mem_cons] at hev
      rcases hev with rfl | hmem
      · exact ⟨rfl, rfl⟩
      · exact htr ev hmem

theorem processSegs_cons_error {env : Env} {tid : Nat} {content : Str} {paraIdx : Nat}
    {seg : Str} {rest : List Str} {segIdx g : Nat} {s : Store} {p : Progress}
    {evs : List Ev} {e : Str}
    (htr : translateOne env content paraIdx segIdx seg = (evs, .error e)) :
    processSegs env tid content paraIdx (seg :: rest) segIdx g s p
      = (s, p, evs, .error e) := by
  simp only [processSegs]
  rw [htr]

theorem processSegs_cons_ok {env : Env} {tid : Nat} {content : Str} {paraIdx : Nat}
    {seg : Str} {rest : List Str} {segIdx g : Nat} {s : Store} {p : Progress}
    {evs : List Ev} {piny english : Str}
    (htr : translateOne env content paraIdx segIdx seg = (evs, .ok (piny, english))) :
    processSegs env tid content paraIdx (seg :: rest) segIdx g s p
      = ((processSegs env tid content paraIdx rest (segIdx + 1) (g + 1)
            (saveTranslationSegment s tid paraIdx segIdx seg piny english)
            (pSet p tid (segProgressUpdate paraIdx segIdx g seg piny english))).1,
          (processSegs env tid content paraIdx rest (segIdx + 1) (g + 1)
            (saveTranslationSegment s tid paraIdx segIdx seg piny english)
            (pSet p tid (segProgressUpdate paraIdx segIdx g seg piny english))).2.1,
          evs ++ Ev.saveSeg paraIdx segIdx seg piny english ::
            (processSegs env tid content paraIdx rest (segIdx + 1) (g + 1)
              (saveTranslationSegment s tid paraIdx segIdx seg piny english)
              (pSet p tid (segProgressUpdate paraIdx segIdx g seg piny english))).2.2.1,
          (processSegs env tid content paraIdx rest (segIdx + 1) (g + 1)
            (saveTranslationSegment s tid paraIdx segIdx seg piny english)
            (pSet p tid (segProgressUpdate paraIdx segIdx g seg piny english))).2.2.2) := by
  simp only [processSegs]
  rw [htr]

theorem processSegs_frame (env : Env) (tid : Nat) (content : Str) (paraIdx : Nat) :
    ∀ (segs : List Str) (segIdx g : Nat) (s : Store) (p : Progress),
      (processSegs env tid content paraIdx segs segIdx g s p).1.jobs = s.jobs ∧
      (processSegs env tid content paraIdx segs segIdx g s p).1.paragraphs = s.paragraphs ∧
      ∃ ts, (processSegs env tid content paraIdx segs segIdx g s p).1.segments
          = s.segments ++ ts ∧
        ∀ r ∈ ts, shouldSkipSegment r.segmentText = true →
          r.pinyin = [] ∧ r.english = [] := by
  intro segs
  induction segs with
  | nil =>
    intro segIdx g s p
    exact ⟨rfl, rfl, [], by simp [processSegs], by intro r hr; cases hr⟩
  | cons seg rest ih =>
    intro segIdx g s p
    rcases htr : translateOne env content paraIdx segIdx seg with ⟨evs, r⟩
    cases r with
    | error e =>
      rw [processSegs_cons_error htr]
      exact ⟨rfl, rfl, [], by simp, by intro r hr; cases hr⟩
    | ok pe =>
      obtain ⟨piny, english⟩ := pe
      rw [processSegs_cons_ok htr]
      obtain ⟨hj, hp, ts, hts, hprop⟩ := ih (segIdx + 1) (g + 1)
        (saveTranslationSegment s tid paraIdx segIdx seg piny english)
        (pSet p tid (segProgressUpdate paraIdx segIdx g seg piny english))
      refine ⟨hj, hp,
        { jobId := tid, paragraphIdx := paraIdx, segIdx := segIdx,
          segmentText := seg, pinyin := piny, english := english } :: ts, ?_, ?_⟩
      · rw [hts]
        simp [saveTranslationSegment]
      · intro r hr
        rcases List.mem_cons.mp hr with rfl | hmem
        · intro hskip
          exact translateOne_ok_skip htr hskip
        · exact hprop r hmem

theorem processSegs_progress (env : Env) (tid : Nat) (content : Str) (paraIdx : Nat) :
    ∀ (segs : List Str) (segIdx g : Nat) (s : Store) (p : Progress),
      (pLookup (processSegs env tid content paraIdx segs segIdx g s p).2.1 tid).isSome
        = (pLookup p tid).isSome ∧
      (pLookup p tid = none →
        (processSegs env tid content paraIdx segs segIdx g s p).2.1 = p) := by
  intro segs
  induction segs with
  | nil => intro segIdx g s p; exact ⟨rfl, fun _ => rfl⟩
  | cons seg rest ih =>
    intro segIdx g s p
    rcases htr : translateOne env content paraIdx segIdx seg with ⟨evs, r⟩
    cases r with
    | error e =>
      rw [processSegs_cons_error htr]
      exact ⟨rfl, fun _ => rfl⟩
    | ok pe =>
      obtain ⟨piny, english⟩ := pe
      rw [processSegs_cons_ok htr]
      obtain ⟨hsome, habs⟩ := ih (segIdx + 1) (g + 1)
        (saveTranslationSegment s tid paraIdx segIdx seg piny english)
        (pSet p tid (segProgressUpdate paraIdx segIdx g seg piny english))
      constructor
      · rw [hsome, pLookup_pSet_isSome]
      · intro habsent
        rw [habs (by rw [pSet_of_absent habsent]; exact habsent),
          pSet_of_absent habsent]

theorem processSegs_indep (env : Env) (tid : Nat) (content : Str) (paraIdx : Nat) :
    ∀ (segs : List Str) (segIdx g : Nat) (s : Store) (p p₂ : Progress),
      (processSegs env tid content paraIdx segs segIdx g s p).1
        = (processSegs env tid content paraIdx segs segIdx g s p₂).1 ∧
      (processSegs env tid content paraIdx segs segIdx g s p).2.2
        = (processSegs env tid content paraIdx segs segIdx g s p₂).2.2 := by
  intro segs
  induction segs with
  | nil => intro segIdx g s p p₂; exact ⟨rfl, rfl⟩
  | cons seg rest ih =>
    intro segIdx g s p p₂
    rcases htr : translateOne env content paraIdx segIdx seg with ⟨evs, r⟩
    cases r with
    | error e =>
      rw [processSegs_cons_error htr, processSegs_cons_error htr]
      exact ⟨rfl, rfl⟩
    | ok pe =>
      obtain ⟨piny, english⟩ := pe
      rw [processSegs_cons_ok htr, processSegs_cons_ok htr]
      obtain ⟨h1, h2⟩ := ih (segIdx + 1) (g + 1)
        (saveTranslationSegment s tid paraIdx segIdx seg piny english)
        (pSet p tid (segProgressUpdate paraIdx segIdx g seg piny english))
        (pSet p₂ tid (segProgressUpdate paraIdx segIdx g seg piny english))
      refine ⟨h1, ?_⟩
      have h3 := congrArg (fun x => x.1) h2
      have h4 := congrArg (fun x => x.2) h2
      simp only at h3 h4
      simp [h3, h4]

theorem processSegs_trace (env : Env) (tid : Nat) (content : Str) (paraIdx : Nat) :
    ∀ (segs : List Str) (segIdx g : Nat) (s : Store) (p : Progress),
      ∀ ev ∈ (processSegs env tid content paraIdx segs segIdx g s p).2.2.1,
        skipViolation ev = false ∧ isSetTotal ev = false := by
  intro segs
  induction segs with
  | nil => intro segIdx g s p ev hev; cases hev
  | cons seg rest ih =>
    intro segIdx g s p ev hev
    rcases htr : translateOne env content paraIdx segIdx seg with ⟨evs, r⟩
    cases r with
    | error e =>
      rw [processSegs_cons_error htr] at hev
      have := translateOne_trace env content paraIdx segIdx seg
      rw [htr] at this
      exact this ev hev
    | ok pe =>
      obtain ⟨piny, english⟩ := pe
      rw [processSegs_cons_ok htr] at hev
      rcases List.mem_append.mp hev with hmem | hmem
      · have := translateOne_trace env content paraIdx segIdx seg
        rw [htr] at this
        exact this ev hmem
      · rcases List.mem_cons.mp hmem with rfl | hmem2
        · exact ⟨rfl, rfl⟩
        · exact ih (segIdx + 1) (g + 1) _ _ ev hmem2

theorem processSegs_ok (env : Env) (tid : Nat) (content : Str) (paraIdx : Nat) :
    ∀ (segs : List Str) (segIdx g : Nat) (s : Store) (p : Progress) (g' : Nat),
      (processSegs env tid content paraIdx segs segIdx g s p).2.2.2 = .ok g' →
      g' = g + segs.length ∧
      ∀ en, pLookup p tid = some en → en.current = g →
        ∃ en', pLookup (processSegs env tid content paraIdx segs segIdx g s p).2.1 tid
            = some en' ∧
          en'.current = g' ∧
          en'.results.length = en.results.length + segs.length ∧
          en'.status = en.status ∧ en'.total = en.total := by
  intro segs
  induction segs with
  | nil =>
    intro segIdx g s p g' hok
    have hg : g = g' := by
      simpa [processSegs] using hok
    subst hg
    exact ⟨by simp, fun en hen hcur =>
      ⟨en, hen, hcur, by simp, rfl, rfl⟩⟩
  | cons seg rest ih =>
    intro segIdx g s p g' hok
    rcases htr : translateOne env content paraIdx segIdx seg with ⟨evs, r⟩
    cases r with
    | error e =>
      rw [processSegs_cons_error htr] at hok
      cases hok
    | ok pe =>
      obtain ⟨piny, english⟩ := pe
      rw [processSegs_cons_ok htr] at hok ⊢
      obtain ⟨hg, hen⟩ := ih (segIdx + 1) (g + 1)
        (saveTranslationSegment s tid paraIdx segIdx seg piny english)
        (pSet p tid (segProgressUpdate paraIdx segIdx g seg piny english)) g' hok
      refine ⟨by rw [hg]; simp; omega, ?_⟩
      intro en hlook hcur
      have hlook1 : pLookup (pSet p tid
            (segProgressUpdate paraIdx segIdx g seg piny english)) tid
          = some (segProgressUpdate paraIdx segIdx g seg piny english en) := by
        rw [pLookup_pSet_self, hlook]
        rfl
      have hcur1 : (segProgressUpdate paraIdx segIdx g seg piny english en).current
          = g + 1 := rfl
      obtain ⟨en', hen', hcur', hlen', hst', htot'⟩ := hen _ hlook1 hcur1
      refine ⟨en', hen', hcur', ?_, hst', htot'⟩
      have hlen2 : (segProgressUpdate paraIdx segIdx g seg piny english en).results.length
          = en.results.length + 1 := by
        simp [segProgressUpdate]
      rw [hlen', hlen2]
      simp
      omega

theorem processParas_cons_error {env : Env} {tid : Nat} {pd : ParaData}
    {rest : List ParaData} {paraIdx g : Nat} {s : Store} {p : Progress} {e : Str}
    (hps : (processSegs env tid pd.content paraIdx pd.segments 0 g s p).2.2.2
        = .error e) :
    processParas env tid (pd :: rest) paraIdx g s p
      = ((processSegs env tid pd.content paraIdx pd.segments 0 g s p).1,
         (processSegs env tid pd.content paraIdx pd.segments 0 g s p).2.1,
         (processSegs env tid pd.content paraIdx pd.segments 0 g s p).2.2.1,
         .error e) := by
  have hx : processSegs env tid pd.content paraIdx pd.segments 0 g s p
      = ((processSegs env tid pd.content paraIdx pd.segments 0 g s p).1,
         (processSegs env tid pd.content paraIdx pd.segments 0 g s p).2.1,
         (processSegs env tid pd.content paraIdx pd.segments 0 g s p).2.2.1,
         (processSegs env tid pd.content paraIdx pd.segments 0 g s p).2.2.2) := rfl
  rw [hps] at hx
  simp only [processParas]
  rw [hx]

theorem processParas_cons_ok {env : Env} {tid : Nat} {pd : ParaData}
    {rest : List ParaData} {paraIdx g : Nat} {s : Store} {p : Progress} {g1 : Nat}
    (hps : (processSegs env tid pd.content paraIdx pd.segments 0 g s p).2.2.2
        = .ok g1) :
    processParas env tid (pd :: rest) paraIdx g s p
      = ((processParas env tid rest (paraIdx + 1) g1
            (processSegs env tid pd.content paraIdx pd.segments 0 g s p).1
            (processSegs env tid pd.content paraIdx pd.segments 0 g s p).2.1).1,
         (processParas env tid rest (paraIdx + 1) g1
            (processSegs env tid pd.content paraIdx pd.segments 0 g s p).1
            (processSegs env tid pd.content paraIdx pd.segments 0 g s p).2.1).2.1,
         (processSegs env tid pd.content paraIdx pd.segments 0 g s p).2.2.1 ++
           (processParas env tid rest (paraIdx + 1) g1
              (processSegs env tid pd.content paraIdx pd.segments 0 g s p).1
              (processSegs env tid pd.content paraIdx pd.segments 0 g s p).2.1).2.2.1,
         (processParas env tid rest (paraIdx + 1) g1
            (processSegs env tid pd.content paraIdx pd.segments 0 g s p).1
            (processSegs env tid pd.content paraIdx pd.segments 0 g s p).2.1).2.2.2) := by
  have hx : processSegs env tid pd.content paraIdx pd.segments 0 g s p
      = ((processSegs env tid pd.content paraIdx pd.segments 0 g s p).1,
         (processSegs env tid pd.content paraIdx pd.segments 0 g s p).2.1,
         (processSegs env tid pd.content paraIdx pd.segments 0 g s p).2.2.1,
         (processSegs env tid pd.content paraIdx pd.segments 0 g s p).2.2.2) := rfl
  rw [hps] at hx
  simp only [processParas]
  rw [hx]

theorem processParas_frame (env : Env) (tid : Nat) :
    ∀ (pds : List ParaData) (paraIdx g : Nat) (s : Store) (p : Progress),
      (processParas env tid pds paraIdx g s p).1.jobs = s.jobs ∧
      (processParas env tid pds paraIdx g s p).1.paragraphs = s.paragraphs ∧
      ∃ ts, (processParas env tid pds paraIdx g s p).1.segments = s.segments ++ ts ∧
        ∀ r ∈ ts, shouldSkipSegment r.segmentText = true →
          r.pinyin = [] ∧ r.english = [] := by
  intro pds
  induction pds with
  | nil =>
    intro paraIdx g s p
    exact ⟨rfl, rfl, [], by simp [processParas], by intro r hr; cases hr⟩
  | cons pd rest ih =>
    intro paraIdx g s p
    obtain ⟨hj0, hp0, ts0, hts0, hprop0⟩ :=
      processSegs_frame env tid pd.content paraIdx pd.segments 0 g s p
    cases hps : (processSegs env tid pd.content paraIdx pd.segments 0 g s p).2.2.2 with
    | error e =>
      rw [processParas_cons_error hps]
      exact ⟨hj0, hp0, ts0, hts0, hprop0⟩
    | ok g1 =>
      rw [processParas_cons_ok hps]
      obtain ⟨hj1, hp1, ts1, hts1, hprop1⟩ := ih (paraIdx + 1) g1
        (processSegs env tid pd.content paraIdx pd.segments 0 g s p).1
        (processSegs env tid pd.content paraIdx pd.segments 0 g s p).2.1
      refine ⟨by rw [hj1, hj0], by rw [hp1, hp0], ts0 ++ ts1, ?_, ?_⟩
      · rw [hts1, hts0, List.append_assoc]
      · intro r hr
        rcases List.mem_append.mp hr with hmem | hmem
        · exact hprop0 r hmem
        · exact hprop1 r hmem

theorem processParas_progress (env : Env) (tid : Nat) :
    ∀ (pds : List ParaData) (paraIdx g : Nat) (s : Store) (p : Progress),
      (pLookup (processParas env tid pds paraIdx g s p).2.1 tid).isSome
        = (pLookup p tid).isSome ∧
      (pLookup p tid = none →
        (processParas env tid pds paraIdx g s p).2.1 = p) := by
  intro pds
  induction pds with
  | nil => intro paraIdx g s p; exact ⟨rfl, fun _ => rfl⟩
  | cons pd rest ih =>
    intro paraIdx g s p
    obtain ⟨hsome0, habs0⟩ :=
      processSegs_progress env tid pd.content paraIdx pd.segments 0 g s p
    cases hps : (processSegs env tid pd.content paraIdx pd.segments 0 g s p).2.2.2 with
    | error e =>
      rw [processParas_cons_error hps]
      exact ⟨hsome0, habs0⟩
    | ok g1 =>
      rw [processParas_cons_ok hps]
      obtain ⟨hsome1, habs1⟩ := ih (paraIdx + 1) g1
        (processSegs env tid pd.content paraIdx pd.segments 0 g s p).1
        (processSegs env tid pd.content paraIdx pd.segments 0 g s p).2.1
      constructor
      · rw [hsome1, hsome0]
      · intro habsent
        rw [habs1 (by rw [habs0 habsent]; exact habsent), habs0 habsent]

theorem processParas_trace (env : Env) (tid : Nat) :
    ∀ (pds : List ParaData) (paraIdx g : Nat) (s : Store) (p : Progress),
      ∀ ev ∈ (processParas env tid pds paraIdx g s p).2.2.1,
        skipViolation ev = false ∧ isSetTotal ev = false := by
  intro pds
  induction pds with
  | nil => intro paraIdx g s p ev hev; cases hev
  | cons pd rest ih =>
    intro paraIdx g s p ev hev
    cases hps : (processSegs env tid pd.content paraIdx pd.segments 0 g s p).2.2.2 with
    | error e =>
      rw [processParas_cons_error hps] at hev
      exact processSegs_trace env tid pd.content paraIdx pd.segments 0 g s p ev hev
    | ok g1 =>
      rw [processParas_cons_ok hps] at hev
      rcases List.mem_append.mp hev with hmem | hmem
      · exact processSegs_trace env tid pd.content paraIdx pd.segments 0 g s p ev hmem
      · exact ih (paraIdx + 1) g1 _ _ ev hmem

theorem processParas_indep (env : Env) (tid : Nat) :
    ∀ (pds : List ParaData) (paraIdx g : Nat) (s : Store) (p p₂ : Progress),
      (processParas env tid pds paraIdx g s p).1
        = (processParas env tid pds paraIdx g s p₂).1 ∧
      (processParas env tid pds paraIdx g s p).2.2
        = (processParas env tid pds paraIdx g s p₂).2.2 := by
  intro pds
  induction pds with
  | nil => intro paraIdx g s p p₂; exact ⟨rfl, rfl⟩
  | cons pd rest ih =>
    intro paraIdx g s p p₂
    obtain ⟨hs0, hr0⟩ :=
      processSegs_indep env tid pd.content paraIdx pd.segments 0 g s p p₂
    have htr0 := congrArg (fun x => x.1) hr0
    have hres0 := congrArg (fun x => x.2) hr0
    simp only at htr0 hres0
    cases hps : (processSegs env tid pd.content paraIdx pd.segments 0 g s p).2.2.2 with
    | error e =>
      have hps₂ : (processSegs env tid pd.content paraIdx pd.segments 0 g s p₂).2.2.2
          = .error e := by rw [← hres0, hps]
      rw [processParas_cons_error hps, processParas_cons_error hps₂]
      exact ⟨hs0, by rw [htr0]⟩
    | ok g1 =>
      have hps₂ : (processSegs env tid pd.content paraIdx pd.segments 0 g s p₂).2.2.2
          = .ok g1 := by rw [← hres0, hps]
      rw [processParas_cons_ok hps, processParas_cons_ok hps₂, ← hs0]
      obtain ⟨hs1, hr1⟩ := ih (paraIdx + 1) g1
        (processSegs env tid pd.content paraIdx pd.segments 0 g s p).1
        (processSegs env tid pd.content paraIdx pd.segments 0 g s p).2.1
        (processSegs env tid pd.content paraIdx pd.segments 0 g s p₂).2.1
      have htr1 := congrArg (fun x => x.1) hr1
      have hres1 := congrArg (fun x => x.2) hr1
      simp only at htr1 hres1
      refine ⟨hs1, ?_⟩
      dsimp only
      rw [htr0, htr1, hres1]

theorem processParas_ok (env : Env) (tid : Nat) :
    ∀ (pds : List ParaData) (paraIdx g : Nat) (s : Store) (p : Progress) (g' : Nat),
      (processParas env tid pds paraIdx g s p).2.2.2 = .ok g' →
      g' = g + (pds.map (fun pd => pd.segments.length)).sum ∧
      ∀ en, pLookup p tid = some en → en.current = g →
        ∃ en', pLookup (processParas env tid pds paraIdx g s p).2.1 tid = some en' ∧
          en'.current = g' ∧
          en'.results.length
            = en.results.length + (pds.map (fun pd => pd.segments.length)).sum ∧
          en'.status = en.status ∧ en'.total = en.total := by
  intro pds
  induction pds with
  | nil =>
    intro paraIdx g s p g' hok
    have hg : g = g' := by
      simpa [processParas] using hok
    subst hg
    exact ⟨by simp, fun en hen hcur => ⟨en, hen, hcur, by simp, rfl, rfl⟩⟩
  | cons pd rest ih =>
    intro paraIdx g s p g' hok
    cases hps : (processSegs env tid pd.content paraIdx pd.segments 0 g s p).2.2.2 with
    | error e =>
      rw [processParas_cons_error hps] at hok
      cases hok
    | ok g1 =>
      rw [processParas_cons_ok hps] at hok ⊢
      obtain ⟨hg1, hen1⟩ :=
        processSegs_ok env tid pd.content paraIdx pd.segments 0 g s p g1 hps
      obtain ⟨hg', hen'⟩ := ih (paraIdx + 1) g1
        (processSegs env tid pd.content paraIdx pd.segments 0 g s p).1
        (processSegs env tid pd.content paraIdx pd.segments 0 g s p).2.1 g' hok
      refine ⟨by rw [hg', hg1]; simp; omega, ?_⟩
      intro en hlook hcur
      obtain ⟨en1, hlook1, hcur1, hlen1, hst1, htot1⟩ := hen1 en hlook hcur
      obtain ⟨en2, hlook2, hcur2, hlen2, hst2, htot2⟩ := hen' en1 hlook1 hcur1
      refine ⟨en2, hlook2, hcur2, ?_, by rw [hst2, hst1], by rw [htot2, htot1]⟩
      rw [hlen2, hlen1]
      simp
      omega

/-! ## `tryBody`-level lemmas -/

theorem tryBody_error {env : Env} {tid : Nat} {s : Store} {p : Progress}
    {s1 : Store} {p1 : Progress} {tr : List Ev} {e : Str}
    (htb : tryBody env tid s p = (s1, p1, tr, .error e)) :
    s1.jobs = (updateTranslationStatus s tid .processing none).jobs ∧
    (∃ tp, s1.paragraphs = s.paragraphs ++ tp) ∧
    (∃ ts, s1.segments = s.segments ++ ts ∧
      ∀ r ∈ ts, shouldSkipSegment r.segmentText = true →
        r.pinyin = [] ∧ r.english = []) ∧
    (pLookup p1 tid).isSome = (pLookup p tid).isSome ∧
    (pLookup p tid = none → p1 = p) ∧
    (∀ ev ∈ tr, skipViolation ev = false) := by
  unfold tryBody at htb
  dsimp only at htb
  cases hgt : getTranslation (updateTranslationStatus s tid .processing none) tid with
  | none =>
    rw [hgt] at htb
    dsimp only at htb
    have hs1 : updateTranslationStatus s tid .processing none = s1 :=
      congrArg (fun x => x.1) htb
    have hp1 : pSet p tid processingUpdate = p1 :=
      congrArg (fun x => x.2.1) htb
    have htr : ([] : List Ev) = tr := congrArg (fun x => x.2.2.1) htb
    subst hs1; subst hp1; subst htr
    refine ⟨rfl, ⟨[], by simp [updateTranslationStatus]⟩,
      ⟨[], by simp [updateTranslationStatus], by intro r hr; cases hr⟩, ?_, ?_, ?_⟩
    · rw [pLookup_pSet_isSome]
    · intro habs
      rw [pSet_of_absent habs]
    · intro ev hev
      cases hev
  | some job =>
    rw [hgt] at htb
    dsimp only at htb
    cases hft : env.fullTranslate job.inputText with
    | error e1 =>
      rw [hft] at htb
      dsimp only at htb
      have hs1 : updateTranslationStatus s tid .processing none = s1 :=
        congrArg (fun x => x.1) htb
      have hp1 : pSet p tid processingUpdate = p1 :=
        congrArg (fun x => x.2.1) htb
      have htr : [Ev.wait .fullTranslation, Ev.fullTranslateCall job.inputText] = tr :=
        congrArg (fun x => x.2.2.1) htb
      subst hs1; subst hp1; subst htr
      refine ⟨rfl, ⟨[], by simp [updateTranslationStatus]⟩,
        ⟨[], by simp [updateTranslationStatus], by intro r hr; cases hr⟩, ?_, ?_, ?_⟩
      · rw [pLookup_pSet_isSome]
      · intro habs
        rw [pSet_of_absent habs]
      · intro ev hev
        rcases List.mem_cons.mp hev with rfl | hev2
        · rfl
        · rcases List.mem_cons.mp hev2 with rfl | hev3
          · rfl
          · cases hev3
    | ok ft =>
      rw [hft] at htb
      dsimp only at htb
      cases hsp : (segmentParas env (splitIntoParagraphs job.inputText)).2 with
      | error e2 =>
        rw [hsp] at htb
        dsimp only at htb
        have hs1 : updateTranslationStatus s tid .processing none = s1 :=
          congrArg (fun x => x.1) htb
        have hp1 : pSet p tid processingUpdate = p1 :=
          congrArg (fun x => x.2.1) htb
        have htr : [Ev.wait .fullTranslation, Ev.fullTranslateCall job.inputText]
            ++ (segmentParas env (splitIntoParagraphs job.inputText)).1 = tr :=
          congrArg (fun x => x.2.2.1) htb
        subst hs1; subst hp1; subst htr
        refine ⟨rfl, ⟨[], by simp [updateTranslationStatus]⟩,
          ⟨[], by simp [updateTranslationStatus], by intro r hr; cases hr⟩, ?_, ?_, ?_⟩
        · rw [pLookup_pSet_isSome]
        · intro habs
          rw [pSet_of_absent habs]
        · intro ev hev
          rcases List.mem_append.mp hev with hmem | hmem
          · rcases List.mem_cons.mp hmem with rfl | hev2
            · rfl
            · rcases List.mem_cons.mp hev2 with rfl | hev3
              · rfl
              · cases hev3
          · exact (segmentParas_trace env (splitIntoParagraphs job.inputText) ev hmem).1
      | ok allPara =>
        rw [hsp] at htb
        dsimp only at htb
        rcases hpp : processParas env tid allPara 0 0
            (saveParas tid allPara 0 (updateTranslationStatus s tid .processing none)).1
            (pSet (pSet p tid processingUpdate) tid
              (totalUpdate ((allPara.map (fun pd => pd.segments.length)).sum)))
          with ⟨s3, p3, tr5, r5⟩
        rw [hpp] at htb
        cases r5 with
        | ok g5 =>
          dsimp only at htb
          exact absurd (congrArg (fun x => x.2.2.2) htb) (by simp)
        | error e5 =>
          dsimp only at htb
          have hs1 : s3 = s1 := congrArg (fun x => x.1) htb
          have hp1 : p3 = p1 := congrArg (fun x => x.2.1) htb
          have htr : [Ev.wait .fullTranslation, Ev.fullTranslateCall job.inputText]
              ++ (segmentParas env (splitIntoParagraphs job.inputText)).1
              ++ Ev.setTotal ((allPara.map (fun pd => pd.segments.length)).sum)
                :: (saveParas tid allPara 0
                      (updateTranslationStatus s tid .processing none)).2
                ++ tr5 = tr :=
            congrArg (fun x => x.2.2.1) htb
          subst hs1; subst hp1; subst htr
          obtain ⟨hjA, hsegA, htsA, htrA⟩ := saveParas_frame tid allPara 0
            (updateTranslationStatus s tid .processing none)
          obtain ⟨hj3, hp3, ts3, hts3, hprop3⟩ := processParas_frame env tid allPara 0 0
            (saveParas tid allPara 0 (updateTranslationStatus s tid .processing none)).1
            (pSet (pSet p tid processingUpdate) tid
              (totalUpdate ((allPara.map (fun pd => pd.segments.length)).sum)))
          obtain ⟨hsome3, habs3⟩ := processParas_progress env tid allPara 0 0
            (saveParas tid allPara 0 (updateTranslationStatus s tid .processing none)).1
            (pSet (pSet p tid processingUpdate) tid
              (totalUpdate ((allPara.map (fun pd => pd.segments.length)).sum)))
          rw [hpp] at hj3 hp3 hts3 hsome3 habs3
          dsimp only at hj3 hp3 hts3 hsome3 habs3
          obtain ⟨tsA, htsA'⟩ := htsA
          have htr5 := processParas_trace env tid allPara 0 0
            (saveParas tid allPara 0 (updateTranslationStatus s tid .processing none)).1
            (pSet (pSet p tid processingUpdate) tid
              (totalUpdate ((allPara.map (fun pd => pd.segments.length)).sum)))
          rw [hpp] at htr5
          dsimp only at htr5
          refine ⟨by rw [hj3, hjA], ⟨tsA, by rw [hp3, htsA']; simp [updateTranslationStatus]⟩,
            ⟨ts3, ?_, hprop3⟩, ?_, ?_, ?_⟩
          · rw [hts3, hsegA]
            simp [updateTranslationStatus]
          · rw [hsome3, pLookup_pSet_isSome, pLookup_pSet_isSome]
          · intro habs
            have habs2 : pLookup (pSet (pSet p tid processingUpdate) tid
                (totalUpdate ((allPara.map (fun pd => pd.segments.length)).sum)))
                tid = none := by
              rw [pSet_of_absent habs, pSet_of_absent habs]
              exact habs
            rw [habs3 habs2, pSet_of_absent habs, pSet_of_absent habs]
          · intro ev hev
            rcases List.mem_append.mp hev with hmem | hmem
            · rcases List.mem_append.mp hmem with hm2 | hm2
              · rcases List.mem_append.mp hm2 with hm3 | hm3
                · rcases List.mem_cons.mp hm3 with rfl | hev2
                  · rfl
                  · rcases List.mem_cons.mp hev2 with rfl | hev3
                    · rfl
                    · cases hev3
                · exact (segmentParas_trace env (splitIntoParagraphs job.inputText) ev hm3).1
              · rcases List.mem_cons.mp hm2 with rfl | hm4
                · rfl
                · exact (htrA ev hm4).1
            · exact (htr5 ev hmem).1


/-! ## Claim C2: failure handling -/

/-- Claim C2: whenever the worker body raises (the run returns
`.error e`), the job row is persisted as failed carrying exactly that
exception message (on top of whatever the job looked like before the
run), the failure is mirrored into the in-memory progress entry when one
exists (and no entry is created when none exists), every Paragraph and
Segment row persisted before the failure remains in storage — the final
tables extend the initial ones, no rollback — and the exception
propagates out of the worker (the `.error e` result itself). -/
theorem claim_C2_failure (env : Env) (tid : Nat) (s : Store) (p : Progress)
    (s' : Store) (p' : Progress) (tr : List Ev) (e : Str)
    (hrun : processTranslation env tid s p = (s', p', tr, .error e)) :
    getTranslation s' tid = (getTranslation s tid).map
      (fun j => { j with status := .failed, errorMessage := some e }) ∧
    (pLookup p' tid).isSome = (pLookup p tid).isSome ∧
    (∀ en, pLookup p tid = some en →
      ∃ en', pLookup p' tid = some en' ∧ en'.status = .failed ∧ en'.error = some e) ∧
    (∃ tp, s'.paragraphs = s.paragraphs ++ tp) ∧
    (∃ ts, s'.segments = s.segments ++ ts) := by
  unfold processTranslation at hrun
  rcases htb : tryBody env tid s p with ⟨s1, p1, tr1, r1⟩
  rw [htb] at hrun
  cases r1 with
  | ok u =>
    dsimp only at hrun
    exact absurd (congrArg (fun x => x.2.2.2) hrun) (by simp)
  | error e1 =>
    dsimp only at hrun
    have he : e1 = e := by
      have := congrArg (fun x => x.2.2.2) hrun
      simpa using this
    subst he
    have hs' : failTranslation s1 tid e1 = s' := congrArg (fun x => x.1) hrun
    have hp' : pSet p1 tid (failedUpdate e1) = p' :=
      congrArg (fun x => x.2.1) hrun
    subst hs'; subst hp'
    obtain ⟨hjobs, ⟨tp, hpar⟩, ⟨ts, hsegs, _⟩, hsome, _⟩ := tryBody_error htb
    refine ⟨?_, ?_, ?_, ⟨tp, ?_⟩, ⟨ts, ?_⟩⟩
    · have h1 : getTranslation (failTranslation s1 tid e1) tid
          = (getTranslation s1 tid).map
              (fun j => { j with status := .failed, errorMessage := some e1 }) :=
        getTranslation_update s1 tid .failed (some e1)
      rw [h1, getTranslation_of_jobs_eq hjobs tid, getTranslation_update]
      cases getTranslation s tid <;> rfl
    · rw [show failTranslation s1 tid e1 = updateTranslationStatus s1 tid .failed (some e1)
        from rfl] at *
      rw [pLookup_pSet_isSome, hsome]
    · intro en hen
      have h2 : (pLookup p1 tid).isSome = true := by
        rw [hsome, hen]
        rfl
      cases hlk : pLookup p1 tid with
      | none => rw [hlk] at h2; cases h2
      | some en1 =>
        refine ⟨{ en1 with status := .failed, error := some e1 }, ?_, rfl, rfl⟩
        rw [pLookup_pSet_self, hlk]
        rfl
    · rw [show (failTranslation s1 tid e1).paragraphs = s1.paragraphs from rfl, hpar]
    · rw [show (failTranslation s1 tid e1).segments = s1.segments from rfl, hsegs]

def c2Env : Env :=
  { fullTranslate := fun _ => .error ("boom".toList)
    segmentText := fun _ => .ok []
    translate := fun _ _ _ => .ok []
    pinyinOracle := fun _ => []
    cedictLookup := fun _ => none }

def c2Store : Store :=
  { nextId := 1
    jobs := [{ id := 0, status := .pending, sourceType := "text".toList,
               inputText := "a".toList, fullTranslation := none, errorMessage := none }]
    paragraphs := []
    segments := [] }

def c2Prog : Progress :=
  [(0, { status := .pending, current := 0, total := 0, results := [],
         fullTranslation := none, error := none })]

theorem claim_C2_witness :
    getTranslation (processTranslation c2Env 0 c2Store c2Prog).1 0
        = (getTranslation c2Store 0).map
            (fun j => { j with status := .failed, errorMessage := some ("boom".toList) }) ∧
      (pLookup (processTranslation c2Env 0 c2Store c2Prog).2.1 0).isSome
        = (pLookup c2Prog 0).isSome ∧
      (∀ en, pLookup c2Prog 0 = some en →
        ∃ en', pLookup (processTranslation c2Env 0 c2Store c2Prog).2.1 0 = some en' ∧
          en'.status = .failed ∧ en'.error = some ("boom".toList)) ∧
      (∃ tp, (processTranslation c2Env 0 c2Store c2Prog).1.paragraphs
          = c2Store.paragraphs ++ tp) ∧
      (∃ ts, (processTranslation c2Env 0 c2Store c2Prog).1.segments
          = c2Store.segments ++ ts) :=
  claim_C2_failure c2Env 0 c2Store c2Prog _ _ _ ("boom".toList) rfl

theorem tryBody_ok {env : Env} {tid : Nat} {s : Store} {p : Progress}
    {s1 : Store} {p1 : Progress} {tr : List Ev} {u : Unit}
    (htb : tryBody env tid s p = (s1, p1, tr, .ok u)) :
    ∃ job ft allPara g5,
      getTranslation (updateTranslationStatus s tid .processing none) tid = some job ∧
      env.fullTranslate job.inputText = .ok ft ∧
      (segmentParas env (splitIntoParagraphs job.inputText)).2 = .ok allPara ∧
      (processParas env tid allPara 0 0
          (saveParas tid allPara 0 (updateTranslationStatus s tid .processing none)).1
          (pSet (pSet p tid processingUpdate) tid
            (totalUpdate ((allPara.map (fun pd => pd.segments.length)).sum)))).2.2.2
        = .ok g5 ∧
      s1.jobs = (completeTranslation (updateTranslationStatus s tid .processing none)
          tid ft).jobs ∧
      p1 = pSet (processParas env tid allPara 0 0
          (saveParas tid allPara 0 (updateTranslationStatus s tid .processing none)).1
          (pSet (pSet p tid processingUpdate) tid
            (totalUpdate ((allPara.map (fun pd => pd.segments.length)).sum)))).2.1
        tid (completedUpdate ft) ∧
      tr = [Ev.wait .fullTranslation, Ev.fullTranslateCall job.inputText]
        ++ (segmentParas env (splitIntoParagraphs job.inputText)).1
        ++ Ev.setTotal ((allPara.map (fun pd => pd.segments.length)).sum)
          :: (saveParas tid allPara 0 (updateTranslationStatus s tid .processing none)).2
          ++ (processParas env tid allPara 0 0
              (saveParas tid allPara 0 (updateTranslationStatus s tid .processing none)).1
              (pSet (pSet p tid processingUpdate) tid
                (totalUpdate ((allPara.map (fun pd => pd.segments.length)).sum)))).2.2.1 ∧
      (∃ tp, s1.paragraphs = s.paragraphs ++ tp) ∧
      (∃ ts, s1.segments = s.segments ++ ts ∧
        ∀ r ∈ ts, shouldSkipSegment r.segmentText = true →
          r.pinyin = [] ∧ r.english = []) := by
  unfold tryBody at htb
  dsimp only at htb
  cases hgt : getTranslation (updateTranslationStatus s tid .processing none) tid with
  | none =>
    rw [hgt] at htb
    dsimp only at htb
    exact absurd (congrArg (fun x => x.2.2.2) htb) (by simp)
  | some job =>
    rw [hgt] at htb
    dsimp only at htb
    cases hft : env.fullTranslate job.inputText with
    | error e1 =>
      rw [hft] at htb
      dsimp only at htb
      exact absurd (congrArg (fun x => x.2.2.2) htb) (by simp)
    | ok ft =>
      rw [hft] at htb
      dsimp only at htb
      cases hsp : (segmentParas env (splitIntoParagraphs job.inputText)).2 with
      | error e2 =>
        rw [hsp] at htb
        dsimp only at htb
        exact absurd (congrArg (fun x => x.2.2.2) htb) (by simp)
      | ok allPara =>
        rw [hsp] at htb
        dsimp only at htb
        rcases hpp : processParas env tid allPara 0 0
            (saveParas tid allPara 0 (updateTranslationStatus s tid .processing none)).1
            (pSet (pSet p tid processingUpdate) tid
              (totalUpdate ((allPara.map (fun pd => pd.segments.length)).sum)))
          with ⟨s3, p3, tr5, r5⟩
        rw [hpp] at htb
        cases r5 with
        | error e5 =>
          dsimp only at htb
          exact absurd (congrArg (fun x => x.2.2.2) htb) (by simp)
        | ok g5 =>
          dsimp only at htb
          have hs1 : completeTranslation s3 tid ft = s1 := congrArg (fun x => x.1) htb
          have hp1 : pSet p3 tid (completedUpdate ft) = p1 :=
            congrArg (fun x => x.2.1) htb
          have htr : _ = tr := congrArg (fun x => x.2.2.1) htb
          obtain ⟨hjA, hsegA, ⟨tsA, htsA⟩, _⟩ := saveParas_frame tid allPara 0
            (updateTranslationStatus s tid .processing none)
          obtain ⟨hj3, hp3, ts3, hts3, hprop3⟩ := processParas_frame env tid allPara 0 0
            (saveParas tid allPara 0 (updateTranslationStatus s tid .processing none)).1
            (pSet (pSet p tid processingUpdate) tid
              (totalUpdate ((allPara.map (fun pd => pd.segments.length)).sum)))
          rw [hpp] at hj3 hp3 hts3
          dsimp only at hj3 hp3 hts3
          refine ⟨job, ft, allPara, g5, rfl, hft, hsp, by rw [hpp], ?_, ?_, ?_, ?_, ?_⟩
          · rw [← hs1]
            show (s3.jobs.map _) = _
            rw [hj3, hjA]
            rfl
          · rw [← hp1, hpp]
          · rw [← htr, hpp]
          · refine ⟨tsA, ?_⟩
            rw [← hs1]
            show s3.paragraphs = _
            rw [hp3, htsA]
            simp [updateTranslationStatus]
          · refine ⟨ts3, ?_, hprop3⟩
            rw [← hs1]
            show s3.segments = _
            rw [hts3, hsegA]
            simp [updateTranslationStatus]

theorem tryBody_indep (env : Env) (tid : Nat) (s : Store) (p p₂ : Progress) :
    (tryBody env tid s p).1 = (tryBody env tid s p₂).1 ∧
    (tryBody env tid s p).2.2 = (tryBody env tid s p₂).2.2 := by
  unfold tryBody
  dsimp only
  cases hgt : getTranslation (updateTranslationStatus s tid .processing none) tid with
  | none =>
    exact ⟨rfl, rfl⟩
  | some job =>
    dsimp only
    cases hft : env.fullTranslate job.inputText with
    | error e1 =>
      exact ⟨rfl, rfl⟩
    | ok ft =>
      dsimp only
      cases hsp : (segmentParas env (splitIntoParagraphs job.inputText)).2 with
      | error e2 =>
        exact ⟨rfl, rfl⟩
      | ok allPara =>
        dsimp only
        have hind := processParas_indep env tid allPara 0 0
          (saveParas tid allPara 0 (updateTranslationStatus s tid .processing none)).1
          (pSet (pSet p tid processingUpdate) tid
            (totalUpdate ((allPara.map (fun pd => pd.segments.length)).sum)))
          (pSet (pSet p₂ tid processingUpdate) tid
            (totalUpdate ((allPara.map (fun pd => pd.segments.length)).sum)))
        rcases hppa : processParas env tid allPara 0 0
            (saveParas tid allPara 0 (updateTranslationStatus s tid .processing none)).1
            (pSet (pSet p tid processingUpdate) tid
              (totalUpdate ((allPara.map (fun pd => pd.segments.length)).sum)))
          with ⟨s3, p3, tr5, r5⟩
        rcases hppb : processParas env tid allPara 0 0
            (saveParas tid allPara 0 (updateTranslationStatus s tid .processing none)).1
            (pSet (pSet p₂ tid processingUpdate) tid
              (totalUpdate ((allPara.map (fun pd => pd.segments.length)).sum)))
          with ⟨s3b, p3b, tr5b, r5b⟩
        rw [hppa, hppb] at hind
        dsimp only at hind
        obtain ⟨hs3, hrr⟩ := hind
        have htr5 : tr5 = tr5b := congrArg (fun x => x.1) hrr
        have hr5 : r5 = r5b := congrArg (fun x => x.2) hrr
        subst hs3; subst htr5; subst hr5
        rw [hppa, hppb]
        cases r5 with
        | error e5 => exact ⟨rfl, rfl⟩
        | ok g5 => exact ⟨rfl, rfl⟩

theorem processTranslation_indep (env : Env) (tid : Nat) (s : Store) (p p₂ : Progress) :
    (processTranslation env tid s p).1 = (processTranslation env tid s p₂).1 ∧
    (processTranslation env tid s p).2.2.1 = (processTranslation env tid s p₂).2.2.1 ∧
    (processTranslation env tid s p).2.2.2 = (processTranslation env tid s p₂).2.2.2 := by
  unfold processTranslation
  obtain ⟨hs, hrr⟩ := tryBody_indep env tid s p p₂
  rcases hta : tryBody env tid s p with ⟨s1, p1, tr1, r1⟩
  rcases htbb : tryBody env tid s p₂ with ⟨s1b, p1b, tr1b, r1b⟩
  rw [hta, htbb] at hs hrr
  dsimp only at hs hrr
  have htr1 : tr1 = tr1b := congrArg (fun x => x.1) hrr
  have hr1 : r1 = r1b := congrArg (fun x => x.2) hrr
  subst hs; subst htr1; subst hr1
  cases r1 with
  | error e => exact ⟨rfl, rfl, rfl⟩
  | ok u => exact ⟨rfl, rfl, rfl⟩

/-! ## Claim C6: skippable segments -/

/-- Claim C6: in every worker run, no rate-limiter wait attributed to a
skippable segment and no translate-collaborator call for a skippable
segment ever appears in the trace, and every segment row the run adds to
storage whose text the skip classifier accepts has empty pinyin and
empty english. -/
theorem claim_C6_skippable (env : Env) (tid : Nat) (s : Store) (p : Progress) :
    (∀ ev ∈ (processTranslation env tid s p).2.2.1, skipViolation ev = false) ∧
    (∀ r ∈ (processTranslation env tid s p).1.segments.drop s.segments.length,
      shouldSkipSegment r.segmentText = true → r.pinyin = [] ∧ r.english = []) := by
  unfold processTranslation
  rcases htb : tryBody env tid s p with ⟨s1, p1, tr1, r1⟩
  cases r1 with
  | error e =>
    dsimp only
    obtain ⟨_, _, ⟨ts, hts, hprop⟩, _, _, htrace⟩ := tryBody_error htb
    constructor
    · exact htrace
    · intro r hr
      have hseg : (failTranslation s1 tid e).segments = s.segments ++ ts := hts
      rw [hseg, List.drop_left] at hr
      exact hprop r hr
  | ok u =>
    dsimp only
    obtain ⟨job, ft, allPara, g5, hgt, hft, hsp, hok, hjobs, hp1, htr, ⟨tp, hpar⟩,
      ⟨ts, hts, hprop⟩⟩ := tryBody_ok htb
    constructor
    · intro ev hev
      rw [htr] at hev
      rcases List.mem_append.mp hev with hmem | hmem
      · rcases List.mem_append.mp hmem with hm2 | hm2
        · rcases List.mem_append.mp hm2 with hm3 | hm3
          · rcases List.mem_cons.mp hm3 with rfl | hev2
            · rfl
            · rcases List.mem_cons.mp hev2 with rfl | hev3
              · rfl
              · cases hev3
          · exact (segmentParas_trace env (splitIntoParagraphs job.inputText) ev hm3).1
        · rcases List.mem_cons.mp hm2 with rfl | hm4
          · rfl
          · exact ((saveParas_frame tid allPara 0
              (updateTranslationStatus s tid .processing none)).2.2.2 ev hm4).1
      · exact (processParas_trace env tid allPara 0 0
          (saveParas tid allPara 0 (updateTranslationStatus s tid .processing none)).1
          (pSet (pSet p tid processingUpdate) tid
            (totalUpdate ((allPara.map (fun pd => pd.segments.length)).sum)))
          ev hmem).1
    · intro r hr
      rw [hts, List.drop_left] at hr
      exact hprop r hr

/-! ## Claim C10: cleanup is permanent and idempotent -/

/-- Claim C10: `cleanup_progress` is idempotent; once the progress entry
for a job is absent, a full worker run never re-creates it — every
progress write is guarded by a membership check, so the whole progress
table is left untouched and `get_progress` stays absent — while the
persisted results and the worker's outcome are exactly the same as they
would be with any progress table (the worker never reads the table). -/
theorem claim_C10_cleanup_guard (env : Env) (tid : Nat) (s : Store) (p : Progress)
    (h : pLookup p tid = none) :
    cleanupProgress (cleanupProgress p tid) tid = cleanupProgress p tid ∧
    (processTranslation env tid s p).2.1 = p ∧
    pLookup (processTranslation env tid s p).2.1 tid = none ∧
    (∀ p₂, (processTranslation env tid s p₂).1 = (processTranslation env tid s p).1 ∧
      (processTranslation env tid s p₂).2.2.2 = (processTranslation env tid s p).2.2.2) := by
  have hunch : (processTranslation env tid s p).2.1 = p := by
    unfold processTranslation
    rcases htb : tryBody env tid s p with ⟨s1, p1, tr1, r1⟩
    cases r1 with
    | error e =>
      dsimp only
      obtain ⟨_, _, _, _, habs, _⟩ := tryBody_error htb
      rw [habs h, pSet_of_absent h]
    | ok u =>
      dsimp only
      obtain ⟨job, ft, allPara, g5, _, _, _, hok, _, hp1, _, _, _⟩ := tryBody_ok htb
      have habsP : pLookup (pSet (pSet p tid processingUpdate) tid
          (totalUpdate ((allPara.map (fun pd => pd.segments.length)).sum))) tid
          = none := by
        rw [pSet_of_absent h, pSet_of_absent h]
        exact h
      obtain ⟨_, habs3⟩ := processParas_progress env tid allPara 0 0
        (saveParas tid allPara 0 (updateTranslationStatus s tid .processing none)).1
        (pSet (pSet p tid processingUpdate) tid
          (totalUpdate ((allPara.map (fun pd => pd.segments.length)).sum)))
      rw [hp1, habs3 habsP, pSet_of_absent h, pSet_of_absent h, pSet_of_absent h]
  refine ⟨?_, hunch, ?_, ?_⟩
  · simp [cleanupProgress, List.filter_filter]
  · rw [hunch]
    exact h
  · intro p₂
    obtain ⟨h1, _, h3⟩ := processTranslation_indep env tid s p₂ p
    exact ⟨h1, h3⟩

def c10Env : Env :=
  { fullTranslate := fun _ => .ok ("T".toList)
    segmentText := fun _ => .ok ["你".toList]
    translate := fun _ _ _ => .ok ("E".toList)
    pinyinOracle := fun _ => "ni".toList
    cedictLookup := fun _ => none }

def c10Store : Store :=
  { nextId := 1
    jobs := [{ id := 0, status := .pending, sourceType := "text".toList,
               inputText := "你".toList, fullTranslation := none, errorMessage := none }]
    paragraphs := []
    segments := [] }

theorem claim_C10_witness :
    pLookup ([] : Progress) 0 = none ∧
    (cleanupProgress (cleanupProgress ([] : Progress) 0) 0
        = cleanupProgress ([] : Progress) 0 ∧
      (processTranslation c10Env 0 c10Store []).2.1 = ([] : Progress) ∧
      pLookup (processTranslation c10Env 0 c10Store []).2.1 0 = none ∧
      (∀ p₂, (processTranslation c10Env 0 c10Store p₂).1
          = (processTranslation c10Env 0 c10Store []).1 ∧
        (processTranslation c10Env 0 c10Store p₂).2.2.2
          = (processTranslation c10Env 0 c10Store []).2.2.2)) :=
  ⟨rfl, claim_C10_cleanup_guard c10Env 0 c10Store [] rfl⟩

/-! ## Claim C5: the job-record invariant -/

/-- The claimed invariant of the persisted job record:
`full_translation` non-null iff completed, `error_message` non-null iff
failed. -/
def jobInvariant (j : JobRecord) : Bool :=
  (j.fullTranslation.isSome == (j.status == .completed)) &&
  (j.errorMessage.isSome == (j.status == .failed))

def c5Store : Store :=
  { nextId := 1
    jobs := [{ id := 0, status := .pending, sourceType := "text".toList,
               inputText := "a".toList, fullTranslation := none, errorMessage := none }]
    paragraphs := []
    segments := [] }

def c5Env1 : Env :=
  { fullTranslate := fun _ => .ok ("T".toList)
    segmentText := fun _ => .ok []
    translate := fun _ _ _ => .ok []
    pinyinOracle := fun _ => []
    cedictLookup := fun _ => none }

def c5Env2 : Env :=
  { c5Env1 with fullTranslate := fun _ => .error ("boom2".toList) }

/-- Claim C5, counterexample: start from a fresh job, run the worker to
completion (persisting `full_translation = "T"`), then — the unguarded
re-processing the claim itself includes — run the worker again with a
failing collaborator.  `fail_translation` sets `status = 'failed'`
without clearing `full_translation` (and `complete_translation` never
clears it either), so the reachable final record has `status = failed`
with `full_translation` still non-null: the invariant is false. -/
theorem claim_C5_counterexample :
    (getTranslation (processTranslation c5Env2 0
        (processTranslation c5Env1 0 c5Store []).1 []).1 0).map
      (fun j => (j.status, j.fullTranslation, jobInvariant j))
      = some (.failed, some ("T".toList), false) := by
  rfl

/-- Claim C5, amended: the invariant holds for every job state produced
by the normal lifecycle — a job whose `full_translation` is still null
(as `create_translation` makes it) processed by at most one worker run:
on success the record is completed with a non-null full translation and
a null error, on failure it is failed with a non-null error and a still
null full translation.  Re-invoking processing on an already-completed
job breaks the invariant, because the stale `full_translation` is never
cleared (see the counterexample). -/
theorem claim_C5_amended (env : Env) (tid : Nat) (s : Store) (p : Progress)
    (job : JobRecord)
    (hjob : getTranslation s tid = some job)
    (hft : job.fullTranslation = none) :
    ∀ j', getTranslation (processTranslation env tid s p).1 tid = some j' →
      jobInvariant j' = true := by
  intro j' hj'
  unfold processTranslation at hj'
  rcases htb : tryBody env tid s p with ⟨s1, p1, tr1, r1⟩
  rw [htb] at hj'
  cases r1 with
  | error e =>
    dsimp only at hj'
    obtain ⟨hjobs, _, _, _, _, _⟩ := tryBody_error htb
    rw [show failTranslation s1 tid e = updateTranslationStatus s1 tid .failed (some e)
        from rfl, getTranslation_update, getTranslation_of_jobs_eq hjobs tid,
      getTranslation_update, hjob] at hj'
    have hj'' : j' = { job with status := .failed, errorMessage := some e } := by
      injection hj' with h
      exact h.symm
    subst hj''
    simp [jobInvariant, hft]
  | ok u =>
    dsimp only at hj'
    obtain ⟨job1, ft, allPara, g5, hgt, _, _, _, hjobs, _, _, _, _⟩ := tryBody_ok htb
    rw [getTranslation_of_jobs_eq hjobs tid, getTranslation_complete,
      getTranslation_update, hjob] at hj'
    have hj'' : j' = { job with
        status := .completed
        errorMessage := none
        fullTranslation := some ft } := by
      injection hj' with h
      exact h.symm
    subst hj''
    simp [jobInvariant]

theorem claim_C5_witness :
    getTranslation c5Store 0 = some
      { id := 0, status := .pending, sourceType := "text".toList,
        inputText := "a".toList, fullTranslation := none, errorMessage := none } ∧
    jobInvariant
      { id := 0, status := .failed, sourceType := "text".toList,
        inputText := "a".toList, fullTranslation := none,
        errorMessage := some ("boom2".toList) } = true :=
  ⟨rfl, claim_C5_amended c5Env2 0 c5Store []
    { id := 0, status := .pending, sourceType := "text".toList,
      inputText := "a".toList, fullTranslation := none, errorMessage := none }
    rfl rfl
    { id := 0, status := .failed, sourceType := "text".toList,
      inputText := "a".toList, fullTranslation := none,
      errorMessage := some ("boom2".toList) }
    rfl⟩

/-! ## Claim C7: `total` publication and completion accounting -/

/-- Claim C7: for every run the worker completes successfully while a
progress entry installed by `submit_translation` (current 0, empty
results) is present, the `total` it publishes equals the sum of segment
counts over all paragraphs returned by segmentation, the publication
event precedes every Paragraph/Segment persistence event in the trace
(and is the only publication of `total`), and the final entry has
`current = total` and exactly `total` accumulated `SegmentResult`s. -/
theorem claim_C7_total (env : Env) (tid : Nat) (s : Store) (p : Progress)
    (s' : Store) (p' : Progress) (tr : List Ev) (job : JobRecord) (en : ProgressEntry)
    (hrun : processTranslation env tid s p = (s', p', tr, .ok ()))
    (hjob : getTranslation s tid = some job)
    (hen : pLookup p tid = some en)
    (hcur : en.current = 0)
    (hres : en.results = []) :
    ∃ allPara n pre post en',
      (segmentParas env (splitIntoParagraphs job.inputText)).2 = .ok allPara ∧
      n = (allPara.map (fun pd => pd.segments.length)).sum ∧
      tr = pre ++ Ev.setTotal n :: post ∧
      (∀ ev ∈ pre, isPersistEv ev = false ∧ isSetTotal ev = false) ∧
      (∀ ev ∈ post, isSetTotal ev = false) ∧
      pLookup p' tid = some en' ∧
      en'.total = n ∧ en'.current = n ∧ en'.results.length = n := by
  unfold processTranslation at hrun
  rcases htb : tryBody env tid s p with ⟨s1, p1, tr1, r1⟩
  rw [htb] at hrun
  cases r1 with
  | error e =>
    dsimp only at hrun
    exact absurd (congrArg (fun x => x.2.2.2) hrun) (by simp)
  | ok u =>
    dsimp only at hrun
    have hp' : p1 = p' := congrArg (fun x => x.2.1) hrun
    have htr' : tr1 = tr := congrArg (fun x => x.2.2.1) hrun
    subst hp'; subst htr'
    obtain ⟨job1, ft, allPara, g5, hgt, hft, hsp, hok, hjobs, hp1, htr, _, _⟩ :=
      tryBody_ok htb
    have hjob1 : job1 = { job with status := .processing, errorMessage := none } := by
      rw [getTranslation_update, hjob] at hgt
      injection hgt with h
      exact h.symm
    have hinput : job1.inputText = job.inputText := by rw [hjob1]
    rw [hinput] at hsp hft htr
    have hlook2 : pLookup (pSet (pSet p tid processingUpdate) tid
          (totalUpdate ((allPara.map (fun pd => pd.segments.length)).sum))) tid
        = some (totalUpdate ((allPara.map (fun pd => pd.segments.length)).sum)
            (processingUpdate en)) := by
      rw [pLookup_pSet_self, pLookup_pSet_self, hen]
      rfl
    obtain ⟨hg5, hforall⟩ := processParas_ok env tid allPara 0 0
      (saveParas tid allPara 0 (updateTranslationStatus s tid .processing none)).1
      (pSet (pSet p tid processingUpdate) tid
        (totalUpdate ((allPara.map (fun pd => pd.segments.length)).sum))) g5 hok
    obtain ⟨en3, hlook3, hcur3, hlen3, hst3, htot3⟩ := hforall _ hlook2 hcur
    have hlook' : pLookup p1 tid = some (completedUpdate ft en3) := by
      rw [hp1, pLookup_pSet_self, hlook3]
      rfl
    refine ⟨allPara, (allPara.map (fun pd => pd.segments.length)).sum,
      [Ev.wait .fullTranslation, Ev.fullTranslateCall job.inputText]
        ++ (segmentParas env (splitIntoParagraphs job.inputText)).1,
      (saveParas tid allPara 0 (updateTranslationStatus s tid .processing none)).2
        ++ (processParas env tid allPara 0 0
            (saveParas tid allPara 0 (updateTranslationStatus s tid .processing none)).1
            (pSet (pSet p tid processingUpdate) tid
              (totalUpdate ((allPara.map (fun pd => pd.segments.length)).sum)))).2.2.1,
      completedUpdate ft en3,
      hsp, rfl, ?_, ?_, ?_, hlook', ?_, ?_, ?_⟩
    · rw [htr]
      simp [List.append_assoc]
    · intro ev hev
      rcases List.mem_append.mp hev with hmem | hmem
      · rcases List.mem_cons.mp hmem with rfl | hev2
        · exact ⟨rfl, rfl⟩
        · rcases List.mem_cons.mp hev2 with rfl | hev3
          · exact ⟨rfl, rfl⟩
          · cases hev3
      · have h2 := segmentParas_trace env (splitIntoParagraphs job.inputText) ev hmem
        exact ⟨h2.2.1, h2.2.2⟩
    · intro ev hev
      rcases List.mem_append.mp hev with hmem | hmem
      · exact ((saveParas_frame tid allPara 0
          (updateTranslationStatus s tid .processing none)).2.2.2 ev hmem).2
      · exact (processParas_trace env tid allPara 0 0
          (saveParas tid allPara 0 (updateTranslationStatus s tid .processing none)).1
          (pSet (pSet p tid processingUpdate) tid
            (totalUpdate ((allPara.map (fun pd => pd.segments.length)).sum)))
          ev hmem).2
    · show en3.total = _
      rw [htot3]
      rfl
    · show en3.current = _
      rw [hcur3, hg5]
      simp
    · show en3.results.length = _
      rw [hlen3]
      have : (totalUpdate ((allPara.map (fun pd => pd.segments.length)).sum)
          (processingUpdate en)).results.length = 0 := by
        show en.results.length = 0
        rw [hres]
        rfl
      rw [this]
      simp

def c7Env : Env :=
  { fullTranslate := fun _ => .ok ("T".toList)
    segmentText := fun _ => .ok ["你".toList, "，".toList]
    translate := fun _ _ _ => .ok ("E".toList)
    pinyinOracle := fun _ => "ni".toList
    cedictLookup := fun _ => none }

def c7Job : JobRecord :=
  { id := 0, status := .pending, sourceType := "text".toList,
    inputText := "你，".toList, fullTranslation := none, errorMessage := none }

def c7Store : Store :=
  { nextId := 1, jobs := [c7Job], paragraphs := [], segments := [] }

def c7Entry : ProgressEntry :=
  { status := .pending, current := 0, total := 0, results := [],
    fullTranslation := none, error := none }

def c7Prog : Progress := [(0, c7Entry)]

theorem claim_C7_witness :
    ∃ allPara n pre post en',
      (segmentParas c7Env (splitIntoParagraphs c7Job.inputText)).2 = .ok allPara ∧
      n = (allPara.map (fun pd => pd.segments.length)).sum ∧
      (processTranslation c7Env 0 c7Store c7Prog).2.2.1 = pre ++ Ev.setTotal n :: post ∧
      (∀ ev ∈ pre, isPersistEv ev = false ∧ isSetTotal ev = false) ∧
      (∀ ev ∈ post, isSetTotal ev = false) ∧
      pLookup (processTranslation c7Env 0 c7Store c7Prog).2.1 0 = some en' ∧
      en'.total = n ∧ en'.current = n ∧ en'.results.length = n :=
  claim_C7_total c7Env 0 c7Store c7Prog
    (processTranslation c7Env 0 c7Store c7Prog).1
    (processTranslation c7Env 0 c7Store c7Prog).2.1
    (processTranslation c7Env 0 c7Store c7Prog).2.2.1
    c7Job c7Entry rfl rfl rfl rfl rfl

/-! ## Claims C3/C4: the completed-job stream replay -/

/-- Strict lexicographic order on `(paragraph_idx, seg_idx)`, the
storage-order well-formedness of a worker-produced job. -/
def lexLt (a b : Nat × Nat) : Prop :=
  a.1 < b.1 ∨ (a.1 = b.1 ∧ a.2 < b.2)

instance (a b : Nat × Nat) : Decidable (lexLt a b) :=
  decidable_of_iff (a.1 < b.1 ∨ (a.1 = b.1 ∧ a.2 < b.2)) Iff.rfl

/-- The `(segment, pinyin, english)` payload of a progress event. -/
def segPayload : Event → Str × Str × Str
  | .progress _ _ seg piny eng _ _ => (seg, piny, eng)
  | _ => ([], [], [])

/-- The `current` counter of a progress event. -/
def currentOf : Event → Nat
  | .progress c _ _ _ _ _ _ => c
  | _ => 0

theorem segEvents_spec (total paraIdx : Nat) :
    ∀ (ts : List (Str × Str × Str)) (g : Nat),
      (segEvents total paraIdx ts g).map segPayload = ts ∧
      (segEvents total paraIdx ts g).map currentOf = List.range' (g + 1) ts.length ∧
      (segEvents total paraIdx ts g).length = ts.length := by
  intro ts
  induction ts with
  | nil => intro g; exact ⟨rfl, rfl, rfl⟩
  | cons t rest ih =>
    intro g
    obtain ⟨h1, h2, h3⟩ := ih (g + 1)
    rcases t with ⟨seg, piny, eng⟩
    refine ⟨?_, ?_, ?_⟩
    · simp only [segEvents, List.map_cons, h1]
      rfl
    · simp only [segEvents, List.map_cons, h2, List.length_cons, List.range'_succ]
      rfl
    · simp only [segEvents, List.length_cons, h3]

theorem paraEvents_spec (total : Nat) :
    ∀ (pas : List ParaOut) (paraIdx g : Nat),
      (paraEvents total pas paraIdx g).map segPayload
        = (pas.map (fun pa => pa.translations)).flatten ∧
      (paraEvents total pas paraIdx g).map currentOf
        = List.range' (g + 1) ((pas.map (fun pa => pa.translations.length)).sum) ∧
      (paraEvents total pas paraIdx g).length
        = (pas.map (fun pa => pa.translations.length)).sum := by
  intro pas
  induction pas with
  | nil => intro paraIdx g; exact ⟨rfl, rfl, rfl⟩
  | cons pa rest ih =>
    intro paraIdx g
    obtain ⟨h1, h2, h3⟩ := ih (paraIdx + 1) (g + pa.translations.length)
    obtain ⟨s1, s2, s3⟩ := segEvents_spec total paraIdx pa.translations g
    refine ⟨?_, ?_, ?_⟩
    · simp only [paraEvents, List.map_append, s1, h1, List.map_cons, List.flatten_cons]
    · simp only [paraEvents, List.map_append, s2, h2, List.map_cons, List.sum_cons]
      have hadj : g + pa.translations.length + 1 = g + 1 + pa.translations.length := by
        omega
      rw [hadj]
      have hr := List.range'_append (g + 1) pa.translations.length
        ((rest.map (fun pa => pa.translations.length)).sum) 1
      simp only [one_mul] at hr
      rw [hr, Nat.add_comm ((rest.map (fun pa => pa.translations.length)).sum)
        pa.translations.length]
    · simp only [paraEvents, List.length_append, s3, h3, List.map_cons, List.sum_cons]

theorem filter_takeWhile_sorted (i : Nat) :
    ∀ ss : List SegRecord,
      ss.Pairwise (fun a b => a.paragraphIdx ≤ b.paragraphIdx) →
      (∀ sr ∈ ss, sr.paragraphIdx = i ∨ i < sr.paragraphIdx) →
      ss.filter (fun sr => sr.paragraphIdx == i)
        = ss.takeWhile (fun sr => sr.paragraphIdx == i) ∧
      ∀ sr ∈ ss.dropWhile (fun sr => sr.paragraphIdx == i), i < sr.paragraphIdx := by
  intro ss
  induction ss with
  | nil => intro _ _; exact ⟨rfl, by intro sr h; cases h⟩
  | cons a t ih =>
    intro hsort hlow
    by_cases ha : a.paragraphIdx = i
    · have hab : (a.paragraphIdx == i) = true := by simpa using ha
      obtain ⟨h1, h2⟩ := ih hsort.of_cons
        (fun sr hsr => hlow sr (List.mem_cons_of_mem _ hsr))
      constructor
      · rw [List.filter_cons, List.takeWhile_cons, hab, h1]
        simp
      · intro sr hsr
        rw [List.dropWhile_cons, hab] at hsr
        simp only [if_true] at hsr
        exact h2 sr (by simpa using hsr)
    · have hgt : i < a.paragraphIdx := by
        rcases hlow a (List.mem_cons_self _ _) with h | h
        · exact absurd h ha
        · exact h
      have hab : (a.paragraphIdx == i) = false := by simpa using ha
      have hall : ∀ sr ∈ a :: t, i < sr.paragraphIdx := by
        intro sr hsr
        rcases List.mem_cons.mp hsr with rfl | hsr2
        · exact hgt
        · have := List.rel_of_pairwise_cons hsort hsr2
          omega
      constructor
      · have hft : List.filter (fun sr => sr.paragraphIdx == i) t = [] := by
          rw [List.filter_eq_nil_iff]
          intro sr hsr
          have := hall sr (List.mem_cons_of_mem _ hsr)
          simp only [beq_iff_eq]
          omega
        rw [List.filter_cons, List.takeWhile_cons, hab, hft]
        simp
      · intro sr hsr
        rw [List.dropWhile_cons, hab] at hsr
        simp only [Bool.false_eq_true, if_false] at hsr
        exact hall sr (by simpa using hsr)

theorem flatten_filter_sorted :
    ∀ (ps : List Nat) (ss : List SegRecord),
      ps.Pairwise (· < ·) →
      ss.Pairwise (fun a b => a.paragraphIdx ≤ b.paragraphIdx) →
      (∀ sr ∈ ss, sr.paragraphIdx ∈ ps) →
      (ps.map (fun i => ss.filter (fun sr => sr.paragraphIdx == i))).flatten = ss := by
  intro ps
  induction ps with
  | nil =>
    intro ss _ _ hmem
    have : ss = [] := by
      rw [List.eq_nil_iff_forall_not_mem]
      intro sr hsr
      exact absurd (hmem sr hsr) (List.not_mem_nil _)
    rw [this]
    rfl
  | cons i rest ih =>
    intro ss hps hss hmem
    have hlow : ∀ sr ∈ ss, sr.paragraphIdx = i ∨ i < sr.paragraphIdx := by
      intro sr hsr
      rcases List.mem_cons.mp (hmem sr hsr) with h | h
      · exact Or.inl h
      · exact Or.inr (List.rel_of_pairwise_cons hps h)
    obtain ⟨hfe, hdrop⟩ := filter_takeWhile_sorted i ss hss hlow
    have hsplit := List.takeWhile_append_dropWhile
      (fun sr => sr.paragraphIdx == i) ss
    have hB : ∀ j ∈ rest, ss.filter (fun sr => sr.paragraphIdx == j)
        = (ss.dropWhile (fun sr => sr.paragraphIdx == i)).filter
            (fun sr => sr.paragraphIdx == j) := by
      intro j hj
      conv_lhs => rw [← hsplit]
      rw [List.filter_append]
      have : (ss.takeWhile (fun sr => sr.paragraphIdx == i)).filter
          (fun sr => sr.paragraphIdx == j) = [] := by
        rw [List.filter_eq_nil_iff]
        intro sr hsr
        have hi : (sr.paragraphIdx == i) = true :=
          @List.mem_takeWhile_imp SegRecord (fun sr => sr.paragraphIdx == i) ss sr hsr
        have hij : i < j := List.rel_of_pairwise_cons hps hj
        simp only [beq_iff_eq] at hi ⊢
        omega
      rw [this]
      rfl
    have hrec := ih (ss.dropWhile (fun sr => sr.paragraphIdx == i))
      hps.of_cons
      (List.Pairwise.sublist (List.dropWhile_sublist _) hss)
      (by
        intro sr hsr
        have hin : sr ∈ ss := (List.dropWhile_sublist _).subset hsr
        rcases List.mem_cons.mp (hmem sr hin) with h | h
        · exact absurd h (by have := hdrop sr hsr; omega)
        · exact h)
    rw [List.map_cons, List.flatten_cons, hfe,
      List.map_congr_left hB, hrec, hsplit]

theorem lexLt_lexLe {a b : Nat × Nat} (h : lexLt a b) : lexLe a b = true := by
  unfold lexLe
  rcases h with h | ⟨h1, h2⟩
  · simp [h]
  · simp [h1]
    omega

/-- The structured paragraph `get_job_with_results` builds for one
paragraph row: its metadata plus the payload of the segment rows with
its index. -/
def mkParaOut (ss : List SegRecord) (pr : ParaRecord) : ParaOut :=
  { paragraphIdx := pr.paragraphIdx
    indent := pr.indent
    separator := pr.separator
    translations := (ss.filter (fun sr => sr.paragraphIdx == pr.paragraphIdx)).map
      (fun sr => (sr.segmentText, sr.pinyin, sr.english)) }

/-- The normal form of `get_job_with_results`' paragraph list on a store
whose rows are already in storage order. -/
def jobParaOuts (s : Store) (jid : Nat) : List ParaOut :=
  (s.paragraphs.filter (fun pr => pr.jobId == jid)).map
    (mkParaOut (s.segments.filter (fun sr => sr.jobId == jid)))

theorem flatten_payload (ps : List ParaRecord) (ss : List SegRecord)
    (hps : ps.Pairwise (fun a b => a.paragraphIdx < b.paragraphIdx))
    (hss : ss.Pairwise (fun a b => a.paragraphIdx ≤ b.paragraphIdx))
    (hmem : ∀ sr ∈ ss, sr.paragraphIdx ∈ ps.map (fun pr => pr.paragraphIdx)) :
    ((ps.map (mkParaOut ss)).map (fun pa => pa.translations)).flatten
      = ss.map (fun sr => (sr.segmentText, sr.pinyin, sr.english)) := by
  have h1 : (ps.map (mkParaOut ss)).map (fun pa => pa.translations)
      = (ps.map (fun pr => ss.filter (fun sr => sr.paragraphIdx == pr.paragraphIdx))).map
          (List.map (fun sr => (sr.segmentText, sr.pinyin, sr.english))) := by
    rw [List.map_map, List.map_map]
    rfl
  have h2 : (ps.map (fun pr =>
      ss.filter (fun sr => sr.paragraphIdx == pr.paragraphIdx))).flatten = ss := by
    have h3 : ps.map (fun pr => ss.filter (fun sr => sr.paragraphIdx == pr.paragraphIdx))
        = (ps.map (fun pr => pr.paragraphIdx)).map
            (fun i => ss.filter (fun sr => sr.paragraphIdx == i)) := by
      rw [List.map_map]
      rfl
    rw [h3]
    exact flatten_filter_sorted _ ss (List.pairwise_map.mpr hps) hss hmem
  rw [h1, ← List.map_flatten, h2]

theorem sum_payload (ps : List ParaRecord) (ss : List SegRecord)
    (hps : ps.Pairwise (fun a b => a.paragraphIdx < b.paragraphIdx))
    (hss : ss.Pairwise (fun a b => a.paragraphIdx ≤ b.paragraphIdx))
    (hmem : ∀ sr ∈ ss, sr.paragraphIdx ∈ ps.map (fun pr => pr.paragraphIdx)) :
    ((ps.map (mkParaOut ss)).map (fun pa => pa.translations.length)).sum = ss.length := by
  have h1 : (ps.map (mkParaOut ss)).map (fun pa => pa.translations.length)
      = ((ps.map (mkParaOut ss)).map (fun pa => pa.translations)).map List.length := by
    rw [List.map_map, List.map_map, List.map_map]
    rfl
  rw [h1, ← List.length_flatten, flatten_payload ps ss hps hss hmem, List.length_map]

/-- Claim C3: for every job persisted as completed (with well-formed
rows: paragraph indices strictly increasing, segments stored in strict
`(paragraph_idx, seg_idx)` order, and no segment orphaned from its
paragraph row — all guaranteed by the worker's write order), the stream
adapter emits exactly one `start` event whose total is the number of
persisted segments, then one `progress` event per persisted segment, in
`(paragraph_idx, seg_idx)` order, with 1-based strictly increasing
`current` (the sequence `1, 2, …, N`), then one `complete` event; it
never invokes `start_processing` and leaves the progress table
untouched. -/
theorem claim_C3_completed_stream (s : Store) (p : Progress) (jid : Nat)
    (job : JobRecord)
    (hjob : getTranslation s jid = some job)
    (hst : job.status = .completed)
    (hps : (s.paragraphs.filter (fun pr => pr.jobId == jid)).Pairwise
      (fun a b => a.paragraphIdx < b.paragraphIdx))
    (hss : (s.segments.filter (fun sr => sr.jobId == jid)).Pairwise
      (fun a b => lexLt (a.paragraphIdx, a.segIdx) (b.paragraphIdx, b.segIdx)))
    (horph : ∀ sr ∈ s.segments.filter (fun sr => sr.jobId == jid),
      sr.paragraphIdx ∈ (s.paragraphs.filter (fun pr => pr.jobId == jid)).map
        (fun pr => pr.paragraphIdx)) :
    ∃ info prog outs,
      (translationStream s p jid).1
        = Event.start ((s.segments.filter (fun sr => sr.jobId == jid)).length)
            info job.fullTranslation
          :: prog ++ [Event.complete outs job.fullTranslation] ∧
      (translationStream s p jid).2.1 = false ∧
      (translationStream s p jid).2.2 = p ∧
      prog.length = (s.segments.filter (fun sr => sr.jobId == jid)).length ∧
      prog.map currentOf
        = List.range' 1 ((s.segments.filter (fun sr => sr.jobId == jid)).length) ∧
      prog.map segPayload
        = (s.segments.filter (fun sr => sr.jobId == jid)).map
            (fun sr => (sr.segmentText, sr.pinyin, sr.english)) := by
  have hssle : (s.segments.filter (fun sr => sr.jobId == jid)).Pairwise
      (fun a b => a.paragraphIdx ≤ b.paragraphIdx) :=
    hss.imp (fun h => by
      rcases h with h | ⟨h1, _⟩
      · omega
      · omega)
  have hmp : parasForJob s jid = s.paragraphs.filter (fun pr => pr.jobId == jid) := by
    unfold parasForJob
    apply List.mergeSort_of_sorted
    exact hps.imp (fun h => by
      simp only [decide_eq_true_eq]
      omega)
  have hms : segsForJob s jid = s.segments.filter (fun sr => sr.jobId == jid) := by
    unfold segsForJob
    apply List.mergeSort_of_sorted
    exact hss.imp (fun h => lexLt_lexLe h)
  have hres : getJobWithResults s jid = some
      { job := job, paragraphs := jobParaOuts s jid } := by
    unfold getJobWithResults
    rw [hjob, hmp, hms]
    rfl
  have hble : (job.status == JobStatus.completed) = true := by
    rw [hst]
    rfl
  have hstream : translationStream s p jid
      = (completedEvents { job := job, paragraphs := jobParaOuts s jid }, false, p) := by
    unfold translationStream
    rw [hjob]
    dsimp only
    rw [hble]
    simp only [if_pos]
    rw [hres]
  have hflat := flatten_payload (s.paragraphs.filter (fun pr => pr.jobId == jid))
    (s.segments.filter (fun sr => sr.jobId == jid)) hps hssle horph
  have hlen := sum_payload (s.paragraphs.filter (fun pr => pr.jobId == jid))
    (s.segments.filter (fun sr => sr.jobId == jid)) hps hssle horph
  obtain ⟨e1, e2, e3⟩ := paraEvents_spec
    ((((jobParaOuts s jid).map (fun pa => pa.translations.length)).sum))
    (jobParaOuts s jid) 0 0
  have hlen' : ((jobParaOuts s jid).map (fun pa => pa.translations.length)).sum
      = (s.segments.filter (fun sr => sr.jobId == jid)).length := hlen
  have hflat' : ((jobParaOuts s jid).map (fun pa => pa.translations)).flatten
      = (s.segments.filter (fun sr => sr.jobId == jid)).map
          (fun sr => (sr.segmentText, sr.pinyin, sr.english)) := hflat
  refine ⟨(jobParaOuts s jid).map (fun pa =>
      { segmentCount := pa.translations.length, indent := pa.indent,
        separator := pa.separator }),
    paraEvents (((jobParaOuts s jid).map (fun pa => pa.translations.length)).sum)
      (jobParaOuts s jid) 0 0,
    jobParaOuts s jid, ?_, by rw [hstream], by rw [hstream],
    by rw [e3, hlen'], by rw [e2, hlen'], by rw [e1, hflat']⟩
  rw [hstream]
  show completedEvents _ = _
  unfold completedEvents
  dsimp only
  rw [hlen']

def c3Job : JobRecord :=
  { id := 0, status := .completed, sourceType := "text".toList,
    inputText := "你好\n世界".toList, fullTranslation := some ("T".toList),
    errorMessage := none }

def c3Store : Store :=
  { nextId := 1
    jobs := [c3Job]
    paragraphs :=
      [{ jobId := 0, paragraphIdx := 0, indent := [], separator := "\n".toList },
       { jobId := 0, paragraphIdx := 1, indent := [], separator := [] }]
    segments :=
      [{ jobId := 0, paragraphIdx := 0, segIdx := 0, segmentText := "你".toList,
         pinyin := "ni".toList, english := "you".toList },
       { jobId := 0, paragraphIdx := 0, segIdx := 1, segmentText := "好".toList,
         pinyin := "hao".toList, english := "good".toList },
       { jobId := 0, paragraphIdx := 1, segIdx := 0, segmentText := "世界".toList,
         pinyin := "shi jie".toList, english := "world".toList }] }

theorem claim_C3_witness :
    ∃ info prog outs,
      (translationStream c3Store [] 0).1
        = Event.start ((c3Store.segments.filter (fun sr => sr.jobId == 0)).length)
            info c3Job.fullTranslation
          :: prog ++ [Event.complete outs c3Job.fullTranslation] ∧
      (translationStream c3Store [] 0).2.1 = false ∧
      (translationStream c3Store [] 0).2.2 = ([] : Progress) ∧
      prog.length = (c3Store.segments.filter (fun sr => sr.jobId == 0)).length ∧
      prog.map currentOf
        = List.range' 1 ((c3Store.segments.filter (fun sr => sr.jobId == 0)).length) ∧
      prog.map segPayload
        = (c3Store.segments.filter (fun sr => sr.jobId == 0)).map
            (fun sr => (sr.segmentText, sr.pinyin, sr.english)) :=
  claim_C3_completed_stream c3Store [] 0 c3Job rfl rfl
    (by decide) (by decide) (by decide)

/-- Claim C4: replaying the stream for an already-completed job is
idempotent — the adapter's terminal branch reads only the persisted
state and the run leaves the progress table unchanged, so a second run
over the unchanged store emits exactly the same event sequence (hence
byte-identical once serialised) and neither run triggers processing. -/
theorem claim_C4_stream_idempotent (s : Store) (p : Progress) (jid : Nat)
    (job : JobRecord)
    (hjob : getTranslation s jid = some job)
    (hst : job.status = .completed) :
    ∃ evs, translationStream s p jid = (evs, false, p) ∧
      translationStream s (translationStream s p jid).2.2 jid
        = (evs, false, (translationStream s p jid).2.2) := by
  have hble : (job.status == JobStatus.completed) = true := by
    rw [hst]
    rfl
  have hmain : ∀ q : Progress, translationStream s q jid
      = ((getJobWithResults s jid).elim [] (fun res => completedEvents res), false, q) := by
    intro q
    unfold translationStream
    rw [hjob]
    dsimp only
    rw [hble]
    simp only [if_pos]
    cases hgr : getJobWithResults s jid with
    | none => rfl
    | some res => rfl
  refine ⟨(getJobWithResults s jid).elim [] (fun res => completedEvents res),
    hmain p, ?_⟩
  rw [hmain p]
  exact hmain p

theorem claim_C4_witness :
    ∃ evs, translationStream c3Store [] 0 = (evs, false, ([] : Progress)) ∧
      translationStream c3Store (translationStream c3Store [] 0).2.2 0
        = (evs, false, (translationStream c3Store [] 0).2.2) :=
  claim_C4_stream_idempotent c3Store [] 0 c3Job rfl rfl

end LanguageApp
